import Mathlib

/-!
Verification of the blocksuite block-tree engine and the embed-video
utilities.  Pure functions under `src/` are embedded directly; the core
store engine (transaction engine, history manager, schema registry,
reactive layer), which lives in the repository outside the provided
sources, is modelled from the specification where noted.
-/

namespace BlockSuite

/-- A property value stored on a block. -/
inductive Val where
  | str (s : String)
  | num (n : Int)
  | boolean (b : Bool)
  | null
deriving DecidableEq, Repr

abbrev PropList := List (String × Val)

/-- A block record: flavour tag, property map, ordered child ids.
The parent relationship is derived, never stored. -/
structure Block where
  flavour : String
  props : PropList
  children : List Nat
deriving DecidableEq, Repr

/-- The block arena: an association list from block id to record,
kept strictly sorted by id. -/
abbrev Arena := List (Nat × Block)

/-! ### List helpers for ordered child sequences -/

/-- Insert an element at a given index (clamped to the end). -/
def insIdx : Nat → Nat → List Nat → List Nat
  | _, x, [] => [x]
  | 0, x, l => x :: l
  | n + 1, x, h :: t => h :: insIdx n x t

/-- Remove the first occurrence of an element. -/
def rmv : Nat → List Nat → List Nat
  | _, [] => []
  | x, h :: t => if h = x then t else h :: rmv x t

/-- Index of the first occurrence of an element. -/
def idxOf : Nat → List Nat → Nat
  | _, [] => 0
  | x, h :: t => if h = x then 0 else idxOf x t + 1

theorem insIdx_zero (x : Nat) (l : List Nat) : insIdx 0 x l = x :: l := by
  cases l <;> rfl

theorem mem_insIdx {i x y : Nat} {l : List Nat} :
    y ∈ insIdx i x l → y = x ∨ y ∈ l := by
  induction l generalizing i with
  | nil => cases i <;> simp [insIdx]
  | cons h t ih =>
    cases i with
    | zero =>
      rw [insIdx_zero]
      simp only [List.mem_cons]
      tauto
    | succ n =>
      simp only [insIdx, List.mem_cons]
      rintro (rfl | hm)
      · right; simp
      · rcases ih hm with h' | h'
        · left; exact h'
        · right; simp [h']

theorem mem_rmv {x y : Nat} {l : List Nat} : y ∈ rmv x l → y ∈ l := by
  induction l with
  | nil => simp [rmv]
  | cons h t ih =>
    simp only [rmv]
    by_cases hx : h = x
    · simp [hx]; intro hm; right; exact hm
    · simp [hx]; rintro (rfl | hm)
      · left; rfl
      · right; exact ih hm

theorem length_insIdx {i x : Nat} {l : List Nat} (h : i ≤ l.length) :
    (insIdx i x l).length = l.length + 1 := by
  induction l generalizing i with
  | nil =>
    obtain rfl : i = 0 := Nat.le_zero.mp h
    simp [insIdx]
  | cons hd t ih =>
    cases i with
    | zero => simp [insIdx_zero]
    | succ n =>
      simp only [insIdx, List.length_cons]
      rw [ih (by simpa using h)]

theorem length_rmv {x : Nat} {l : List Nat} (h : x ∈ l) :
    (rmv x l).length = l.length - 1 := by
  induction l with
  | nil => cases h
  | cons hd t ih =>
    simp only [rmv]
    by_cases hx : hd = x
    · simp [hx]
    · have ht : x ∈ t := by
        rcases List.mem_cons.mp h with h' | h'
        · exact absurd h'.symm hx
        · exact h'
      simp only [if_neg hx, List.length_cons, ih ht]
      have : 1 ≤ t.length := List.length_pos.mpr (List.ne_nil_of_mem ht)
      omega

theorem idxOf_lt_length {x : Nat} {l : List Nat} (h : x ∈ l) :
    idxOf x l < l.length := by
  induction l with
  | nil => cases h
  | cons hd t ih =>
    simp only [idxOf]
    by_cases hx : hd = x
    · simp [hx]
    · have ht : x ∈ t := by
        rcases List.mem_cons.mp h with h' | h'
        · exact absurd h'.symm hx
        · exact h'
      simp only [if_neg hx, List.length_cons]
      exact Nat.succ_lt_succ (ih ht)

/-- Removing a just-inserted element restores the list. -/
theorem rmv_insIdx {i x : Nat} {l : List Nat} (hi : i ≤ l.length)
    (hx : x ∉ l) : rmv x (insIdx i x l) = l := by
  induction l generalizing i with
  | nil =>
    obtain rfl : i = 0 := Nat.le_zero.mp hi
    simp [insIdx, rmv]
  | cons hd t ih =>
    cases i with
    | zero => simp [insIdx_zero, rmv]
    | succ n =>
      have hhd : hd ≠ x := fun h => hx (h ▸ List.mem_cons_self hd t)
      simp only [insIdx, rmv, if_neg hhd]
      rw [ih (by simpa using hi) (fun h => hx (List.mem_cons_of_mem hd h))]

/-- Re-inserting a removed element at its old index restores the list. -/
theorem insIdx_idxOf_rmv {x : Nat} {l : List Nat} (h : x ∈ l) :
    insIdx (idxOf x l) x (rmv x l) = l := by
  induction l with
  | nil => cases h
  | cons hd t ih =>
    simp only [idxOf, rmv]
    by_cases hx : hd = x
    · simp [hx, insIdx_zero]
    · have ht : x ∈ t := by
        rcases List.mem_cons.mp h with h' | h'
        · exact absurd h'.symm hx
        · exact h'
      simp only [if_neg hx, insIdx]
      rw [ih ht]

/-- The index of a freshly inserted element is its insertion index. -/
theorem idxOf_insIdx {i x : Nat} {l : List Nat} (hi : i ≤ l.length)
    (hx : x ∉ l) : idxOf x (insIdx i x l) = i := by
  induction l generalizing i with
  | nil =>
    obtain rfl : i = 0 := Nat.le_zero.mp hi
    simp [insIdx, idxOf]
  | cons hd t ih =>
    cases i with
    | zero => simp [insIdx_zero, idxOf]
    | succ n =>
      have hhd : hd ≠ x := fun h => hx (h ▸ List.mem_cons_self hd t)
      simp only [insIdx, idxOf, if_neg hhd]
      rw [ih (by simpa using hi) (fun h => hx (List.mem_cons_of_mem hd h))]

theorem not_mem_rmv_of_nodup {x : Nat} {l : List Nat} (hd : l.Nodup) :
    x ∉ rmv x l := by
  induction l with
  | nil => simp [rmv]
  | cons h t ih =>
    simp only [rmv]
    rcases List.nodup_cons.mp hd with ⟨hht, hnd⟩
    by_cases hx : h = x
    · subst hx; simp only [if_pos rfl]; exact fun hm => hht hm
    · simp only [if_neg hx, List.mem_cons]
      rintro (h' | h')
      · exact hx h'.symm
      · exact ih hnd h'

theorem nodup_rmv {x : Nat} {l : List Nat} (hd : l.Nodup) :
    (rmv x l).Nodup := by
  induction l with
  | nil => simp [rmv]
  | cons h t ih =>
    rcases List.nodup_cons.mp hd with ⟨hht, hnd⟩
    simp only [rmv]
    by_cases hx : h = x
    · simpa [hx] using hnd
    · rw [if_neg hx]
      exact List.nodup_cons.mpr ⟨fun hm => hht (mem_rmv hm), ih hnd⟩

theorem nodup_insIdx {i x : Nat} {l : List Nat} (hx : x ∉ l)
    (hd : l.Nodup) : (insIdx i x l).Nodup := by
  induction l generalizing i with
  | nil => cases i <;> simp [insIdx]
  | cons h t ih =>
    rcases List.nodup_cons.mp hd with ⟨hht, hnd⟩
    cases i with
    | zero =>
      refine List.nodup_cons.mpr ⟨?_, hd⟩
      simpa using hx
    | succ n =>
      simp only [insIdx]
      refine List.nodup_cons.mpr ⟨?_, ?_⟩
      · intro hm
        rcases mem_insIdx hm with rfl | hm'
        · exact hx (List.mem_cons_self h t)
        · exact hht hm'
      · exact ih (fun h' => hx (List.mem_cons_of_mem h h')) hnd

/-! ### Arena operations (sorted association list keyed by block id) -/

/-- Find the record stored under an id. -/
def lookupA : Arena → Nat → Option Block
  | [], _ => none
  | (k, b) :: rest, id => if k = id then some b else lookupA rest id

/-- Replace the record stored under an id (no-op when absent). -/
def setA : Arena → Nat → Block → Arena
  | [], _, _ => []
  | (k, b) :: rest, id, nb =>
    if k = id then (k, nb) :: rest else (k, b) :: setA rest id nb

/-- Delete the entry stored under an id. -/
def eraseA : Arena → Nat → Arena
  | [], _ => []
  | (k, b) :: rest, id => if k = id then rest else (k, b) :: eraseA rest id

/-- Insert a fresh entry, keeping the arena sorted by id. -/
def insertA : Nat → Block → Arena → Arena
  | id, nb, [] => [(id, nb)]
  | id, nb, (k, b) :: rest =>
    if id < k then (id, nb) :: (k, b) :: rest else (k, b) :: insertA id nb rest

/-- Keys of the entries that list an id among their children: the
derived parent relationship. -/
def parentsOf : Arena → Nat → List Nat
  | [], _ => []
  | (k, b) :: rest, id =>
    if id ∈ b.children then k :: parentsOf rest id else parentsOf rest id

/-- The arena's keys are strictly increasing. -/
def sortedA (a : Arena) : Prop := (a.map Prod.fst).Pairwise (· < ·)

instance : DecidablePred sortedA := fun a =>
  inferInstanceAs (Decidable ((a.map Prod.fst).Pairwise (· < ·)))

theorem lookupA_eq_none_iff {a : Arena} {id : Nat} :
    lookupA a id = none ↔ id ∉ a.map Prod.fst := by
  induction a with
  | nil => simp [lookupA]
  | cons kb rest ih =>
    obtain ⟨k, b⟩ := kb
    simp only [lookupA, List.map_cons, List.mem_cons]
    by_cases hk : k = id
    · simp [hk]
    · simp only [if_neg hk, ih]
      constructor
      · intro h; rintro (h' | h')
        · exact hk h'.symm
        · exact h h'
      · intro h h'; exact h (Or.inr h')

theorem lookupA_mem {a : Arena} {id : Nat} {b : Block}
    (h : lookupA a id = some b) : (id, b) ∈ a := by
  induction a with
  | nil => simp [lookupA] at h
  | cons kb rest ih =>
    obtain ⟨k, b'⟩ := kb
    simp only [lookupA] at h
    by_cases hk : k = id
    · rw [if_pos hk] at h
      subst hk
      cases h
      exact List.mem_cons_self _ _
    · rw [if_neg hk] at h
      exact List.mem_cons_of_mem _ (ih h)

theorem lookupA_setA_self {a : Arena} {id : Nat} {b nb : Block}
    (h : lookupA a id = some b) : lookupA (setA a id nb) id = some nb := by
  induction a with
  | nil => simp [lookupA] at h
  | cons kb rest ih =>
    obtain ⟨k, b'⟩ := kb
    simp only [lookupA, setA] at *
    by_cases hk : k = id
    · simp [hk, lookupA]
    · rw [if_neg hk] at h ⊢
      simp only [lookupA, if_neg hk]
      exact ih h

theorem lookupA_setA_ne {a : Arena} {id k' : Nat} {nb : Block}
    (h : k' ≠ id) : lookupA (setA a id nb) k' = lookupA a k' := by
  induction a with
  | nil => simp [setA]
  | cons kb rest ih =>
    obtain ⟨k, b⟩ := kb
    simp only [setA]
    by_cases hk : k = id
    · subst hk
      have hne : ¬(k = k') := fun h' => h h'.symm
      simp only [if_pos rfl, lookupA, if_neg hne]
    · simp only [if_neg hk, lookupA]
      by_cases hk' : k = k'
      · simp [hk']
      · simp only [if_neg hk', ih]

theorem setA_setA {a : Arena} {id : Nat} {b₁ b₂ : Block} :
    setA (setA a id b₁) id b₂ = setA a id b₂ := by
  induction a with
  | nil => simp [setA]
  | cons kb rest ih =>
    obtain ⟨k, b⟩ := kb
    simp only [setA]
    by_cases hk : k = id
    · simp [hk, setA]
    · simp only [if_neg hk, setA, if_neg hk, ih]

theorem setA_self {a : Arena} {id : Nat} {b : Block}
    (h : lookupA a id = some b) : setA a id b = a := by
  induction a with
  | nil => simp [setA]
  | cons kb rest ih =>
    obtain ⟨k, b'⟩ := kb
    simp only [lookupA] at h
    simp only [setA]
    by_cases hk : k = id
    · rw [if_pos hk] at h
      cases h
      simp [hk]
    · rw [if_neg hk] at h ⊢
      rw [ih h]

theorem keys_setA {a : Arena} {id : Nat} {nb : Block} :
    (setA a id nb).map Prod.fst = a.map Prod.fst := by
  induction a with
  | nil => simp [setA]
  | cons kb rest ih =>
    obtain ⟨k, b⟩ := kb
    simp only [setA]
    by_cases hk : k = id
    · simp [hk]
    · simp [if_neg hk, ih]

theorem mem_setA {a : Arena} {id : Nat} {nb : Block} {kb : Nat × Block}
    (h : kb ∈ setA a id nb) : kb ∈ a ∨ kb = (id, nb) := by
  induction a with
  | nil => simp [setA] at h
  | cons kb' rest ih =>
    obtain ⟨k, b⟩ := kb'
    simp only [setA] at h
    by_cases hk : k = id
    · rw [if_pos hk] at h
      rcases List.mem_cons.mp h with rfl | h'
      · right; rw [hk]
      · left; exact List.mem_cons_of_mem _ h'
    · rw [if_neg hk] at h
      rcases List.mem_cons.mp h with rfl | h'
      · left; exact List.mem_cons_self _ _
      · rcases ih h' with h'' | h''
        · left; exact List.mem_cons_of_mem _ h''
        · right; exact h''

theorem sortedA_cons {k : Nat} {b : Block} {rest : Arena}
    (h : sortedA ((k, b) :: rest)) :
    (∀ q ∈ rest.map Prod.fst, k < q) ∧ sortedA rest := by
  simpa [sortedA] using h

theorem mem_insertA {a : Arena} {id : Nat} {nb : Block} {kb : Nat × Block}
    (h : kb ∈ insertA id nb a) : kb = (id, nb) ∨ kb ∈ a := by
  induction a with
  | nil => simpa [insertA] using h
  | cons kb' rest ih =>
    obtain ⟨k, b⟩ := kb'
    simp only [insertA] at h
    by_cases hlt : id < k
    · rw [if_pos hlt] at h
      rcases List.mem_cons.mp h with rfl | h'
      · left; rfl
      · right; exact h'
    · rw [if_neg hlt] at h
      rcases List.mem_cons.mp h with rfl | h'
      · right; exact List.mem_cons_self _ _
      · rcases ih h' with h'' | h''
        · left; exact h''
        · right; exact List.mem_cons_of_mem _ h''

theorem keys_insertA_mem {a : Arena} {id q : Nat} {nb : Block}
    (h : q ∈ (insertA id nb a).map Prod.fst) :
    q = id ∨ q ∈ a.map Prod.fst := by
  rcases List.mem_map.mp h with ⟨kb, hkb, rfl⟩
  rcases mem_insertA hkb with rfl | h'
  · left; rfl
  · right; exact List.mem_map_of_mem _ h'

theorem lookupA_insertA_self {a : Arena} {id : Nat} {nb : Block}
    (h : lookupA a id = none) : lookupA (insertA id nb a) id = some nb := by
  induction a with
  | nil => simp [insertA, lookupA]
  | cons kb rest ih =>
    obtain ⟨k, b⟩ := kb
    simp only [lookupA] at h
    by_cases hk : k = id
    · simp [hk] at h
    · rw [if_neg hk] at h
      simp only [insertA]
      by_cases hlt : id < k
      · simp [hlt, lookupA]
      · simp only [if_neg hlt, lookupA, if_neg hk]
        exact ih h

theorem lookupA_insertA_ne {a : Arena} {id k' : Nat} {nb : Block}
    (h : k' ≠ id) : lookupA (insertA id nb a) k' = lookupA a k' := by
  induction a with
  | nil =>
    simp only [insertA, lookupA]
    rw [if_neg (fun h' => h h'.symm)]
  | cons kb rest ih =>
    obtain ⟨k, b⟩ := kb
    simp only [insertA]
    by_cases hlt : id < k
    · simp only [if_pos hlt, lookupA]
      rw [if_neg (fun h' => h h'.symm)]
    · simp only [if_neg hlt, lookupA]
      by_cases hk : k = k'
      · simp [hk]
      · simp only [if_neg hk, ih]

theorem eraseA_insertA {a : Arena} {id : Nat} {nb : Block}
    (h : lookupA a id = none) : eraseA (insertA id nb a) id = a := by
  induction a with
  | nil => simp [insertA, eraseA]
  | cons kb rest ih =>
    obtain ⟨k, b⟩ := kb
    simp only [lookupA] at h
    by_cases hk : k = id
    · simp [hk] at h
    · rw [if_neg hk] at h
      simp only [insertA]
      by_cases hlt : id < k
      · simp [hlt, eraseA]
      · simp only [if_neg hlt, eraseA, if_neg hk]
        rw [ih h]

theorem insertA_eraseA {a : Arena} {id : Nat} {b : Block}
    (hs : sortedA a) (h : lookupA a id = some b) :
    insertA id b (eraseA a id) = a := by
  induction a with
  | nil => simp [lookupA] at h
  | cons kb rest ih =>
    obtain ⟨k, b'⟩ := kb
    obtain ⟨hhead, hrest⟩ := sortedA_cons hs
    simp only [lookupA] at h
    simp only [eraseA]
    by_cases hk : k = id
    · rw [if_pos hk] at h ⊢
      cases h
      subst hk
      cases rest with
      | nil => simp [insertA]
      | cons kb₁ rest₁ =>
        obtain ⟨k₁, b₁⟩ := kb₁
        have hlt : k < k₁ := hhead k₁ (by simp)
        simp [insertA, hlt]
    · rw [if_neg hk] at h ⊢
      have hmem : id ∈ rest.map Prod.fst :=
        List.mem_map_of_mem _ (lookupA_mem h)
      have hklt : k < id := hhead id hmem
      simp only [insertA, if_neg (Nat.not_lt.mpr (Nat.le_of_lt hklt))]
      rw [ih hrest h]

theorem lookupA_eraseA_self {a : Arena} {id : Nat} (hs : sortedA a) :
    lookupA (eraseA a id) id = none := by
  induction a with
  | nil => simp [eraseA, lookupA]
  | cons kb rest ih =>
    obtain ⟨k, b⟩ := kb
    obtain ⟨hhead, hrest⟩ := sortedA_cons hs
    simp only [eraseA]
    by_cases hk : k = id
    · rw [if_pos hk]
      rw [lookupA_eq_none_iff]
      intro hmem
      exact absurd (hk ▸ hhead id hmem) (lt_irrefl id)
    · rw [if_neg hk]
      simp only [lookupA, if_neg hk]
      exact ih hrest

theorem lookupA_eraseA_ne {a : Arena} {id k' : Nat} (h : k' ≠ id) :
    lookupA (eraseA a id) k' = lookupA a k' := by
  induction a with
  | nil => simp [eraseA]
  | cons kb rest ih =>
    obtain ⟨k, b⟩ := kb
    by_cases hk : k = id
    · subst hk
      have hne : ¬(k = k') := fun h' => h h'.symm
      show lookupA (if k = k then rest else (k, b) :: eraseA rest k) k' = _
      rw [if_pos rfl]
      simp only [lookupA, if_neg hne]
    · show lookupA (if k = id then rest else (k, b) :: eraseA rest id) k' = _
      rw [if_neg hk]
      simp only [lookupA]
      by_cases hk' : k = k'
      · simp [hk']
      · simp only [if_neg hk', ih]

theorem eraseA_sublist (a : Arena) (id : Nat) :
    List.Sublist (eraseA a id) a := by
  induction a with
  | nil => simp [eraseA]
  | cons kb rest ih =>
    obtain ⟨k, b⟩ := kb
    simp only [eraseA]
    by_cases hk : k = id
    · rw [if_pos hk]
      exact List.sublist_cons_self _ _
    · rw [if_neg hk]
      exact List.Sublist.cons₂ _ ih

theorem mem_eraseA {a : Arena} {id : Nat} {kb : Nat × Block}
    (h : kb ∈ eraseA a id) : kb ∈ a :=
  (eraseA_sublist a id).mem h

theorem sortedA_setA {a : Arena} {id : Nat} {nb : Block} (hs : sortedA a) :
    sortedA (setA a id nb) := by
  unfold sortedA at *
  rw [keys_setA]
  exact hs

theorem sortedA_eraseA {a : Arena} {id : Nat} (hs : sortedA a) :
    sortedA (eraseA a id) :=
  hs.sublist ((eraseA_sublist a id).map Prod.fst)

theorem sortedA_insertA {a : Arena} {id : Nat} {nb : Block}
    (hs : sortedA a) (h : lookupA a id = none) :
    sortedA (insertA id nb a) := by
  induction a with
  | nil => simp [insertA, sortedA]
  | cons kb rest ih =>
    obtain ⟨k, b⟩ := kb
    obtain ⟨hhead, hrest⟩ := sortedA_cons hs
    simp only [lookupA] at h
    by_cases hk : k = id
    · simp [hk] at h
    · rw [if_neg hk] at h
      simp only [insertA]
      by_cases hlt : id < k
      · rw [if_pos hlt]
        refine List.pairwise_cons.mpr ⟨?_, hs⟩
        intro q hq
        rcases List.mem_cons.mp hq with rfl | hq'
        · exact hlt
        · exact lt_trans hlt (hhead q hq')
      · rw [if_neg hlt]
        show ((k, b) :: insertA id nb rest).map Prod.fst |>.Pairwise (· < ·)
        simp only [List.map_cons]
        refine List.pairwise_cons.mpr ⟨?_, ih hrest h⟩
        intro q hq
        rcases keys_insertA_mem hq with rfl | hq'
        · omega
        · exact hhead q hq'

theorem setA_insertA {a : Arena} {id p : Nat} {nb pb : Block}
    (h : p ≠ id) : setA (insertA id nb a) p pb = insertA id nb (setA a p pb) := by
  induction a with
  | nil =>
    simp only [insertA, setA]
    rw [if_neg (fun h' => h h'.symm)]
  | cons kb rest ih =>
    obtain ⟨k, b⟩ := kb
    simp only [insertA, setA]
    by_cases hlt : id < k
    · rw [if_pos hlt]
      simp only [setA, if_neg (fun h' : id = p => h h'.symm)]
      by_cases hk : k = p
      · simp only [if_pos hk, insertA, if_pos hlt]
      · simp only [if_neg hk, insertA, if_pos hlt]
    · rw [if_neg hlt]
      by_cases hk : k = p
      · simp only [setA, if_pos hk, insertA, if_neg hlt]
      · simp only [setA, if_neg hk, insertA, if_neg hlt, ih]

theorem eraseA_setA {a : Arena} {id p : Nat} {pb : Block}
    (h : p ≠ id) : eraseA (setA a p pb) id = setA (eraseA a id) p pb := by
  induction a with
  | nil => simp [setA, eraseA]
  | cons kb rest ih =>
    obtain ⟨k, b⟩ := kb
    simp only [setA, eraseA]
    by_cases hk : k = p
    · rw [if_pos hk]
      have hne : ¬(k = id) := fun h' => h (hk ▸ h' ▸ rfl)
      simp only [eraseA, if_neg hne, setA, if_pos hk]
    · rw [if_neg hk]
      by_cases hki : k = id
      · simp only [eraseA, if_pos hki, setA]
      · simp only [eraseA, if_neg hki, setA, if_neg hk, ih]

/-! ### Derived-parent lemmas -/

theorem parentsOf_eq_nil_iff {a : Arena} {id : Nat} :
    parentsOf a id = [] ↔ ∀ kb ∈ a, id ∉ kb.2.children := by
  induction a with
  | nil => simp [parentsOf]
  | cons kb rest ih =>
    obtain ⟨k, b⟩ := kb
    simp only [parentsOf]
    by_cases hm : id ∈ b.children
    · simp only [if_pos hm]
      constructor
      · intro h; cases h
      · intro h
        exact absurd hm (h (k, b) (List.mem_cons_self _ _))
    · simp only [if_neg hm, ih]
      constructor
      · intro h kb' hkb'
        rcases List.mem_cons.mp hkb' with rfl | h'
        · exact hm
        · exact h kb' h'
      · intro h kb' hkb'
        exact h kb' (List.mem_cons_of_mem _ hkb')

theorem parentsOf_subset_keys {a : Arena} {id q : Nat}
    (h : q ∈ parentsOf a id) : q ∈ a.map Prod.fst := by
  induction a with
  | nil => simp [parentsOf] at h
  | cons kb rest ih =>
    obtain ⟨k, b⟩ := kb
    simp only [parentsOf] at h
    by_cases hm : id ∈ b.children
    · rw [if_pos hm] at h
      rcases List.mem_cons.mp h with rfl | h'
      · simp
      · simp only [List.map_cons, List.mem_cons]
        exact Or.inr (ih h')
    · rw [if_neg hm] at h
      simp only [List.map_cons, List.mem_cons]
      exact Or.inr (ih h)

/-- After inserting an entry that references no one, derived parents are
unchanged. -/
theorem parentsOf_insertA {a : Arena} {k id : Nat} {nb : Block}
    (h : id ∉ nb.children) : parentsOf (insertA k nb a) id = parentsOf a id := by
  induction a with
  | nil => simp [insertA, parentsOf, h]
  | cons kb rest ih =>
    obtain ⟨k', b⟩ := kb
    simp only [insertA]
    by_cases hlt : k < k'
    · rw [if_pos hlt]
      simp only [parentsOf, if_neg h]
    · rw [if_neg hlt]
      simp only [parentsOf]
      by_cases hm : id ∈ b.children
      · simp only [if_pos hm, ih]
      · simp only [if_neg hm, ih]

/-- Giving the (unique) parent a child list that now references `id`
makes it the sole derived parent. -/
theorem parentsOf_setA_new {a : Arena} {id p : Nat} {pb pb' : Block}
    (h0 : parentsOf a id = []) (hl : lookupA a p = some pb)
    (hm : id ∈ pb'.children) : parentsOf (setA a p pb') id = [p] := by
  induction a with
  | nil => simp [lookupA] at hl
  | cons kb rest ih =>
    obtain ⟨k, b⟩ := kb
    simp only [parentsOf] at h0
    by_cases hmb : id ∈ b.children
    · rw [if_pos hmb] at h0; cases h0
    · rw [if_neg hmb] at h0
      simp only [lookupA] at hl
      simp only [setA]
      by_cases hk : k = p
      · rw [if_pos hk]
        simp only [parentsOf, if_pos hm, hk]
        rw [parentsOf_eq_nil_iff.mpr (fun kb' hkb' =>
          (parentsOf_eq_nil_iff.mp h0) kb' hkb')]
      · rw [if_neg hk] at hl ⊢
        simp only [parentsOf, if_neg hmb]
        exact ih h0 hl

/-- Removing the reference from the sole derived parent leaves the id
unreferenced. -/
theorem parentsOf_setA_drop {a : Arena} {id p : Nat} {pb pb' : Block}
    (hs : sortedA a) (h0 : parentsOf a id = [p]) (hl : lookupA a p = some pb)
    (hm : id ∉ pb'.children) : parentsOf (setA a p pb') id = [] := by
  induction a with
  | nil => simp [lookupA] at hl
  | cons kb rest ih =>
    obtain ⟨k, b⟩ := kb
    obtain ⟨hhead, hrest⟩ := sortedA_cons hs
    simp only [parentsOf] at h0
    simp only [lookupA] at hl
    simp only [setA]
    by_cases hk : k = p
    · rw [if_pos hk] at hl ⊢
      simp only [parentsOf, if_neg hm]
      by_cases hmb : id ∈ b.children
      · rw [if_pos hmb] at h0
        have : parentsOf rest id = [] := by
          injection h0
        exact this
      · rw [if_neg hmb] at h0
        have hmem : p ∈ rest.map Prod.fst := parentsOf_subset_keys (h0 ▸ List.mem_singleton_self p)
        exact absurd (hk ▸ hhead p hmem) (lt_irrefl p)
    · rw [if_neg hk] at hl ⊢
      simp only [parentsOf]
      by_cases hmb : id ∈ b.children
      · rw [if_pos hmb] at h0
        have : k = p := by injection h0 with h1 h2
        exact absurd this hk
      · rw [if_neg hmb] at h0 ⊢
        exact ih hrest h0 hl

/-- The sole derived parent's record does list the id among its
children. -/
theorem parentsOf_single_mem {a : Arena} {id p : Nat} {pb : Block}
    (hs : sortedA a) (h0 : parentsOf a id = [p]) (hl : lookupA a p = some pb) :
    id ∈ pb.children := by
  induction a with
  | nil => simp [lookupA] at hl
  | cons kb rest ih =>
    obtain ⟨k, b⟩ := kb
    obtain ⟨hhead, hrest⟩ := sortedA_cons hs
    simp only [parentsOf] at h0
    simp only [lookupA] at hl
    by_cases hk : k = p
    · rw [if_pos hk] at hl
      have hbp : b = pb := by injection hl
      subst hbp
      by_cases hmb : id ∈ b.children
      · exact hmb
      · rw [if_neg hmb] at h0
        have hmem : p ∈ rest.map Prod.fst := parentsOf_subset_keys (h0 ▸ List.mem_singleton_self p)
        exact absurd (hk ▸ hhead p hmem) (lt_irrefl p)
    · rw [if_neg hk] at hl
      by_cases hmb : id ∈ b.children
      · rw [if_pos hmb] at h0
        have : k = p := by injection h0
        exact absurd this hk
      · rw [if_neg hmb] at h0
        exact ih hrest h0 hl

theorem self_mem_insIdx (i x : Nat) (l : List Nat) : x ∈ insIdx i x l := by
  induction l generalizing i with
  | nil => cases i <;> simp [insIdx]
  | cons h t ih =>
    cases i with
    | zero => simp [insIdx_zero]
    | succ n =>
      simp only [insIdx, List.mem_cons]
      exact Or.inr (ih n)

theorem mem_parentsOf {a : Arena} {id k : Nat} {bk : Block}
    (hm : (k, bk) ∈ a) (hc : id ∈ bk.children) : k ∈ parentsOf a id := by
  induction a with
  | nil => cases hm
  | cons kb rest ih =>
    obtain ⟨k', b'⟩ := kb
    simp only [parentsOf]
    rcases List.mem_cons.mp hm with h | h
    · injection h with h1 h2
      subst h1; subst h2
      simp [if_pos hc]
    · by_cases hm' : id ∈ b'.children
      · simp only [if_pos hm', List.mem_cons]
        exact Or.inr (ih h)
      · simp only [if_neg hm']
        exact ih h

theorem parentsOf_eraseA_nil {a : Arena} {id k : Nat}
    (h : parentsOf a id = []) : parentsOf (eraseA a k) id = [] :=
  parentsOf_eq_nil_iff.mpr fun kb hkb =>
    parentsOf_eq_nil_iff.mp h kb (mem_eraseA hkb)

/-! ### Property lists -/

/-- Look up a property value by key. -/
def lookupProp : PropList → String → Option Val
  | [], _ => none
  | (k, v) :: rest, key => if k = key then some v else lookupProp rest key

/-- Set a property: replace the first binding in place, or append. -/
def setProp : PropList → String → Val → PropList
  | [], key, v => [(key, v)]
  | (k, v') :: rest, key, v =>
    if k = key then (k, v) :: rest else (k, v') :: setProp rest key v

/-- Delete the first binding of a key. -/
def delProp : PropList → String → PropList
  | [], _ => []
  | (k, v) :: rest, key => if k = key then rest else (k, v) :: delProp rest key

/-- One property update: `some v` sets the key, `none` removes it. -/
def applyUpd1 (ps : PropList) : String × Option Val → PropList
  | (k, some v) => setProp ps k v
  | (k, none) => delProp ps k

/-- The undo record for one update: the key's previous binding. -/
def invUpd1 (ps : PropList) (u : String × Option Val) : String × Option Val :=
  (u.1, lookupProp ps u.1)

/-- Apply a list of updates, returning the new property list together
with the inverse updates (in undo application order). -/
def applyUpds : PropList → List (String × Option Val) → PropList × List (String × Option Val)
  | ps, [] => (ps, [])
  | ps, u :: rest =>
    let inv := invUpd1 ps u
    let r := applyUpds (applyUpd1 ps u) rest
    (r.1, r.2 ++ [inv])

theorem setProp_setProp {ps : PropList} {k : String} {v₁ v₂ : Val} :
    setProp (setProp ps k v₁) k v₂ = setProp ps k v₂ := by
  induction ps with
  | nil => simp [setProp]
  | cons kv rest ih =>
    obtain ⟨k', v'⟩ := kv
    simp only [setProp]
    by_cases hk : k' = k
    · simp [hk, setProp]
    · simp only [if_neg hk, setProp, if_neg hk, ih]

theorem setProp_self {ps : PropList} {k : String} {v : Val}
    (h : lookupProp ps k = some v) : setProp ps k v = ps := by
  induction ps with
  | nil => simp [lookupProp] at h
  | cons kv rest ih =>
    obtain ⟨k', v'⟩ := kv
    simp only [lookupProp] at h
    simp only [setProp]
    by_cases hk : k' = k
    · rw [if_pos hk] at h ⊢
      cases h
      rfl
    · rw [if_neg hk] at h ⊢
      rw [ih h]

theorem setProp_of_absent {ps : PropList} {k : String} {v : Val}
    (h : lookupProp ps k = none) : setProp ps k v = ps ++ [(k, v)] := by
  induction ps with
  | nil => simp [setProp]
  | cons kv rest ih =>
    obtain ⟨k', v'⟩ := kv
    simp only [lookupProp] at h
    by_cases hk : k' = k
    · simp [hk] at h
    · rw [if_neg hk] at h
      simp only [setProp, if_neg hk, List.cons_append, ih h]

theorem delProp_append_of_absent {ps : PropList} {k : String} {v : Val}
    (h : lookupProp ps k = none) : delProp (ps ++ [(k, v)]) k = ps := by
  induction ps with
  | nil => simp [delProp]
  | cons kv rest ih =>
    obtain ⟨k', v'⟩ := kv
    simp only [lookupProp] at h
    by_cases hk : k' = k
    · simp [hk] at h
    · rw [if_neg hk] at h
      simp only [List.cons_append, delProp, if_neg hk, List.append_eq, ih h]

/-- Applying one set-update then its undo record restores the
property list exactly. -/
theorem applyUpd1_inv {ps : PropList} {u : String × Option Val}
    (hok : u.2.isSome) : applyUpd1 (applyUpd1 ps u) (invUpd1 ps u) = ps := by
  obtain ⟨k, v?⟩ := u
  cases v? with
  | none => simp at hok
  | some v =>
    simp only [applyUpd1, invUpd1]
    cases hl : lookupProp ps k with
    | none =>
      simp only [applyUpd1]
      rw [setProp_of_absent hl, delProp_append_of_absent hl]
    | some v₀ =>
      simp only [applyUpd1]
      rw [setProp_setProp, setProp_self hl]

/-- Fold a list of updates (discarding inverse records). -/
def applyUpdList : PropList → List (String × Option Val) → PropList
  | ps, [] => ps
  | ps, u :: rest => applyUpdList (applyUpd1 ps u) rest

theorem applyUpdList_append {ps : PropList} {l₁ l₂ : List (String × Option Val)} :
    applyUpdList ps (l₁ ++ l₂) = applyUpdList (applyUpdList ps l₁) l₂ := by
  induction l₁ generalizing ps with
  | nil => simp [applyUpdList]
  | cons u rest ih => simp only [List.cons_append, applyUpdList, List.append_eq, ih]

theorem applyUpds_fst {ps : PropList} {us : List (String × Option Val)} :
    (applyUpds ps us).1 = applyUpdList ps us := by
  induction us generalizing ps with
  | nil => simp [applyUpds, applyUpdList]
  | cons u rest ih => simp only [applyUpds, applyUpdList, ih]

/-- Applying updates and then the recorded inverse updates restores the
property list exactly. -/
theorem applyUpds_inv {ps : PropList} {us : List (String × Option Val)}
    (hok : ∀ u ∈ us, u.2.isSome) :
    applyUpdList (applyUpds ps us).1 (applyUpds ps us).2 = ps := by
  induction us generalizing ps with
  | nil => simp [applyUpds, applyUpdList]
  | cons u rest ih =>
    simp only [applyUpds]
    rw [applyUpdList_append]
    have h₁ : ∀ u' ∈ rest, u'.2.isSome := fun u' h => hok u' (List.mem_cons_of_mem _ h)
    rw [ih h₁]
    simp only [applyUpdList]
    exact applyUpd1_inv (hok u (List.mem_cons_self _ _))

/-! ### Primitive mutations over the arena

Modelled from the spec: the primitive substrate writes produced by the
Block Tree Model (§4.2) — node insertion, node removal (one node at a
time, children already detached), property updates, and node moves.
History Entries store, per transaction, the forward operations and an
inverse sequence "sufficient to revert the transaction" (§3), computed
here alongside each application. -/

inductive Mut where
  | insertNode (id : Nat) (flavour : String) (props : PropList)
      (parent index : Nat)
  | removeNode (id : Nat)
  | updateProps (id : Nat) (updates : List (String × Option Val))
  | moveNode (id newParent newIndex : Nat)
deriving DecidableEq, Repr

/-- Forward mutations issued by the public API only ever set properties
(never remove them); removal entries appear only inside computed
inverses. -/
def Mut.fwdOK : Mut → Bool
  | .updateProps _ us => us.all (fun u => u.2.isSome)
  | _ => true

/-- Well-formedness of an arena: keys strictly sorted, each child list
duplicate-free, and no block its own parent. -/
def WFarena (a : Arena) : Prop :=
  sortedA a ∧ ∀ kb ∈ a, kb.2.children.Nodup ∧ kb.1 ∉ kb.2.children

instance : DecidablePred WFarena := fun _ =>
  inferInstanceAs (Decidable (_ ∧ _))

/-- Apply one primitive mutation; on success also return the inverse
mutation that reverts it. -/
def applyMutI : Mut → Arena → Option (Arena × Mut)
  | .insertNode id fl props parent index, a =>
    match lookupA a id with
    | some _ => none
    | none =>
      match lookupA a parent with
      | none => none
      | some pb =>
        if parentsOf a id = [] ∧ index ≤ pb.children.length then
          some (insertA id ⟨fl, props, []⟩
              (setA a parent { pb with children := insIdx index id pb.children }),
            .removeNode id)
        else none
  | .removeNode id, a =>
    match lookupA a id with
    | none => none
    | some b =>
      if b.children = [] then
        match parentsOf a id with
        | [p] =>
          match lookupA a p with
          | none => none
          | some pb =>
            some (eraseA (setA a p { pb with children := rmv id pb.children }) id,
              .insertNode id b.flavour b.props p (idxOf id pb.children))
        | _ => none
      else none
  | .updateProps id us, a =>
    match lookupA a id with
    | none => none
    | some b =>
      let r := applyUpds b.props us
      some (setA a id { b with props := r.1 }, .updateProps id r.2)
  | .moveNode id newParent newIndex, a =>
    match lookupA a id with
    | none => none
    | some _ =>
      match parentsOf a id with
      | [oldP] =>
        match lookupA a oldP with
        | none => none
        | some opb =>
          let a₁ := setA a oldP { opb with children := rmv id opb.children }
          match lookupA a₁ newParent with
          | none => none
          | some npb =>
            if id ≠ newParent ∧ newIndex ≤ npb.children.length then
              some (setA a₁ newParent
                  { npb with children := insIdx newIndex id npb.children },
                .moveNode id oldP (idxOf id opb.children))
            else none
      | _ => none

/-- Apply one primitive mutation, discarding the inverse record. -/
def applyMut (m : Mut) (a : Arena) : Option Arena :=
  (applyMutI m a).map Prod.fst

/-- Apply a sequence of primitive mutations. -/
def applyMuts : List Mut → Arena → Option Arena
  | [], a => some a
  | m :: rest, a =>
    match applyMut m a with
    | none => none
    | some a₁ => applyMuts rest a₁

/-- Apply a sequence of primitive mutations, returning the inverse
sequence (already ordered for undo application). -/
def applyMutsI : List Mut → Arena → Option (Arena × List Mut)
  | [], a => some (a, [])
  | m :: rest, a =>
    match applyMutI m a with
    | none => none
    | some (a₁, m') =>
      match applyMutsI rest a₁ with
      | none => none
      | some (a', invs) => some (a', invs ++ [m'])

theorem applyMuts_append {l₁ l₂ : List Mut} {a : Arena} :
    applyMuts (l₁ ++ l₂) a =
      match applyMuts l₁ a with
      | none => none
      | some a₁ => applyMuts l₂ a₁ := by
  induction l₁ generalizing a with
  | nil => simp [applyMuts]
  | cons m rest ih =>
    simp only [List.cons_append, applyMuts]
    cases applyMut m a with
    | none => rfl
    | some a₁ => exact ih

theorem applyMutsI_fst {ms : List Mut} {a a' : Arena} {invs : List Mut}
    (h : applyMutsI ms a = some (a', invs)) : applyMuts ms a = some a' := by
  induction ms generalizing a invs with
  | nil =>
    simp only [applyMutsI] at h
    cases h
    simp [applyMuts]
  | cons m rest ih =>
    cases hm : applyMutI m a with
    | none => simp [applyMutsI, hm] at h
    | some p =>
      obtain ⟨a₁, m'⟩ := p
      cases hr : applyMutsI rest a₁ with
      | none => simp [applyMutsI, hm, hr] at h
      | some q =>
        obtain ⟨a'', invs'⟩ := q
        simp only [applyMutsI, hm, hr] at h
        injection h with h1
        injection h1 with h2 h3
        subst h2
        simp only [applyMuts, applyMut, hm, Option.map_some]
        exact ih hr

theorem insertNode_spec {a a' : Arena} {m' : Mut} {id : Nat} {fl : String}
    {props : PropList} {parent index : Nat}
    (h : applyMutI (.insertNode id fl props parent index) a = some (a', m')) :
    ∃ pb, lookupA a id = none ∧ lookupA a parent = some pb ∧
      parentsOf a id = [] ∧ index ≤ pb.children.length ∧
      a' = insertA id ⟨fl, props, []⟩
        (setA a parent { pb with children := insIdx index id pb.children }) ∧
      m' = .removeNode id := by
  simp only [applyMutI] at h
  cases hid : lookupA a id with
  | some b => simp [hid] at h
  | none =>
    simp only [hid] at h
    cases hpar : lookupA a parent with
    | none => simp [hpar] at h
    | some pb =>
      simp only [hpar] at h
      split_ifs at h with hg
      · obtain ⟨hp0, hidx⟩ := hg
        injection h with h1
        injection h1 with h2 h3
        exact ⟨pb, rfl, rfl, hp0, hidx, h2.symm, h3.symm⟩

theorem removeNode_spec {a a' : Arena} {m' : Mut} {id : Nat}
    (h : applyMutI (.removeNode id) a = some (a', m')) :
    ∃ b p pb, lookupA a id = some b ∧ b.children = [] ∧
      parentsOf a id = [p] ∧ lookupA a p = some pb ∧
      a' = eraseA (setA a p { pb with children := rmv id pb.children }) id ∧
      m' = .insertNode id b.flavour b.props p (idxOf id pb.children) := by
  simp only [applyMutI] at h
  cases hid : lookupA a id with
  | none => simp [hid] at h
  | some b =>
    simp only [hid] at h
    split_ifs at h with hch
    · cases hps : parentsOf a id with
      | nil => simp [hps] at h
      | cons p rest =>
        cases rest with
        | nil =>
          simp only [hps] at h
          cases hpb : lookupA a p with
          | none => simp [hpb] at h
          | some pb =>
            simp only [hpb] at h
            injection h with h1
            injection h1 with h2 h3
            exact ⟨b, p, pb, rfl, hch, rfl, hpb, h2.symm, h3.symm⟩
        | cons q rest' => simp [hps] at h

theorem updateProps_spec {a a' : Arena} {m' : Mut} {id : Nat}
    {us : List (String × Option Val)}
    (h : applyMutI (.updateProps id us) a = some (a', m')) :
    ∃ b, lookupA a id = some b ∧
      a' = setA a id { b with props := (applyUpds b.props us).1 } ∧
      m' = .updateProps id (applyUpds b.props us).2 := by
  simp only [applyMutI] at h
  cases hid : lookupA a id with
  | none => simp [hid] at h
  | some b =>
    simp only [hid] at h
    injection h with h1
    injection h1 with h2 h3
    exact ⟨b, rfl, h2.symm, h3.symm⟩

theorem moveNode_spec {a a' : Arena} {m' : Mut} {id newParent newIndex : Nat}
    (h : applyMutI (.moveNode id newParent newIndex) a = some (a', m')) :
    ∃ bid oldP opb npb, lookupA a id = some bid ∧
      parentsOf a id = [oldP] ∧ lookupA a oldP = some opb ∧
      lookupA (setA a oldP { opb with children := rmv id opb.children })
        newParent = some npb ∧
      id ≠ newParent ∧ newIndex ≤ npb.children.length ∧
      a' = setA (setA a oldP { opb with children := rmv id opb.children })
        newParent { npb with children := insIdx newIndex id npb.children } ∧
      m' = .moveNode id oldP (idxOf id opb.children) := by
  simp only [applyMutI] at h
  cases hid : lookupA a id with
  | none => simp [hid] at h
  | some bid =>
    simp only [hid] at h
    cases hps : parentsOf a id with
    | nil => simp [hps] at h
    | cons p rest =>
      cases rest with
      | nil =>
        simp only [hps] at h
        cases hop : lookupA a p with
        | none => simp [hop] at h
        | some opb =>
          simp only [hop] at h
          cases hnp : lookupA (setA a p { opb with children := rmv id opb.children })
              newParent with
          | none => simp [hnp] at h
          | some npb =>
            simp only [hnp] at h
            split_ifs at h with hg
            · obtain ⟨hne, hidx⟩ := hg
              injection h with h1
              injection h1 with h2 h3
              exact ⟨bid, p, opb, npb, rfl, rfl, hop, hnp, hne, hidx,
                h2.symm, h3.symm⟩
      | cons q rest' => simp [hps] at h

/-- Every successful primitive mutation preserves arena
well-formedness. -/
theorem applyMutI_WF {m : Mut} {a a' : Arena} {m' : Mut}
    (hwf : WFarena a) (h : applyMutI m a = some (a', m')) : WFarena a' := by
  obtain ⟨hs, hent⟩ := hwf
  cases m with
  | insertNode id fl props parent index =>
    obtain ⟨pb, hid, hpar, hp0, hidx, ha', hm'⟩ := insertNode_spec h
    subst ha'
    have hpne : parent ≠ id := by
      intro he
      rw [he, hid] at hpar
      cases hpar
    have hidpb : id ∉ pb.children :=
      parentsOf_eq_nil_iff.mp hp0 (parent, pb) (lookupA_mem hpar)
    obtain ⟨hpbNd, hpbNm⟩ := hent (parent, pb) (lookupA_mem hpar)
    constructor
    · exact sortedA_insertA (sortedA_setA hs)
        ((lookupA_setA_ne (fun he => hpne he.symm)).trans hid)
    · intro kb hkb
      rcases mem_insertA hkb with rfl | hkb'
      · exact ⟨List.nodup_nil, by simp⟩
      · rcases mem_setA hkb' with hka | rfl
        · exact hent kb hka
        · refine ⟨nodup_insIdx hidpb hpbNd, ?_⟩
          intro hm
          rcases mem_insIdx hm with he | hm2
          · exact hpne he
          · exact hpbNm hm2
  | removeNode id =>
    obtain ⟨b, p, pb, hid, hch, hps, hpb, ha', hm'⟩ := removeNode_spec h
    subst ha'
    obtain ⟨hpbNd, hpbNm⟩ := hent (p, pb) (lookupA_mem hpb)
    constructor
    · exact sortedA_eraseA (sortedA_setA hs)
    · intro kb hkb
      rcases mem_setA (mem_eraseA hkb) with hka | rfl
      · exact hent kb hka
      · exact ⟨nodup_rmv hpbNd, fun hm => hpbNm (mem_rmv hm)⟩
  | updateProps id us =>
    obtain ⟨b, hid, ha', hm'⟩ := updateProps_spec h
    subst ha'
    obtain ⟨hbNd, hbNm⟩ := hent (id, b) (lookupA_mem hid)
    constructor
    · exact sortedA_setA hs
    · intro kb hkb
      rcases mem_setA hkb with hka | rfl
      · exact hent kb hka
      · exact ⟨hbNd, hbNm⟩
  | moveNode id newParent newIndex =>
    obtain ⟨bid, oldP, opb, npb, hid, hps, hop, hnp, hne, hidx, ha', hm'⟩ :=
      moveNode_spec h
    subst ha'
    obtain ⟨hopNd, hopNm⟩ := hent (oldP, opb) (lookupA_mem hop)
    have hwf₁ : WFarena (setA a oldP { opb with children := rmv id opb.children }) := by
      constructor
      · exact sortedA_setA hs
      · intro kb hkb
        rcases mem_setA hkb with hka | rfl
        · exact hent kb hka
        · exact ⟨nodup_rmv hopNd, fun hm => hopNm (mem_rmv hm)⟩
    have hp₁ : parentsOf (setA a oldP
        { opb with children := rmv id opb.children }) id = [] :=
      parentsOf_setA_drop hs hps hop (not_mem_rmv_of_nodup hopNd)
    have hidnp : id ∉ npb.children :=
      parentsOf_eq_nil_iff.mp hp₁ (newParent, npb) (lookupA_mem hnp)
    obtain ⟨hnpNd, hnpNm⟩ := hwf₁.2 (newParent, npb) (lookupA_mem hnp)
    constructor
    · exact sortedA_setA hwf₁.1
    · intro kb hkb
      rcases mem_setA hkb with hka | rfl
      · exact hwf₁.2 kb hka
      · refine ⟨nodup_insIdx hidnp hnpNd, ?_⟩
        intro hm
        rcases mem_insIdx hm with he | hm2
        · exact hne he.symm
        · exact hnpNm hm2

theorem Block.eta (b : Block) :
    (⟨b.flavour, b.props, b.children⟩ : Block) = b := rfl

/-- Inverting a node insertion: the recorded removal restores the
arena exactly. -/
theorem insertNode_inv {a a' : Arena} {m' : Mut} {id : Nat} {fl : String}
    {props : PropList} {parent index : Nat} (hwf : WFarena a)
    (h : applyMutI (.insertNode id fl props parent index) a = some (a', m')) :
    ∃ m'', applyMutI m' a' = some (a, m'') := by
  obtain ⟨hs, hent⟩ := hwf
  obtain ⟨pb, hid, hpar, hp0, hidx, ha', hm'⟩ := insertNode_spec h
  subst ha'; subst hm'
  have hpne : parent ≠ id := by
    intro he
    rw [he, hid] at hpar
    cases hpar
  have hidpb : id ∉ pb.children :=
    parentsOf_eq_nil_iff.mp hp0 (parent, pb) (lookupA_mem hpar)
  have hl1 : lookupA (insertA id ⟨fl, props, []⟩
      (setA a parent { pb with children := insIdx index id pb.children })) id =
      some ⟨fl, props, []⟩ :=
    lookupA_insertA_self ((lookupA_setA_ne (fun he => hpne he.symm)).trans hid)
  have hpa' : parentsOf (insertA id ⟨fl, props, []⟩
      (setA a parent { pb with children := insIdx index id pb.children })) id =
      [parent] := by
    rw [parentsOf_insertA (by simp : id ∉ (⟨fl, props, []⟩ : Block).children)]
    exact parentsOf_setA_new hp0 hpar (self_mem_insIdx _ _ _)
  have hl2 : lookupA (insertA id ⟨fl, props, []⟩
      (setA a parent { pb with children := insIdx index id pb.children }))
      parent = some { pb with children := insIdx index id pb.children } :=
    (lookupA_insertA_ne hpne).trans (lookupA_setA_self hpar)
  refine ⟨.insertNode id fl props parent (idxOf id (insIdx index id pb.children)), ?_⟩
  simp only [applyMutI, hl1, hpa', hl2, if_true]
  simp only [rmv_insIdx hidx hidpb, Block.eta]
  rw [setA_insertA hpne, setA_setA, setA_self hpar, eraseA_insertA hid]

/-- Inverting a node removal: the recorded re-insertion restores the
arena exactly. -/
theorem removeNode_inv {a a' : Arena} {m' : Mut} {id : Nat} (hwf : WFarena a)
    (h : applyMutI (.removeNode id) a = some (a', m')) :
    ∃ m'', applyMutI m' a' = some (a, m'') := by
  obtain ⟨hs, hent⟩ := hwf
  obtain ⟨b, p, pb, hid, hch, hps, hpb, ha', hm'⟩ := removeNode_spec h
  subst ha'; subst hm'
  obtain ⟨hpbNd, hpbNm⟩ := hent (p, pb) (lookupA_mem hpb)
  have hidInPb : id ∈ pb.children := parentsOf_single_mem hs hps hpb
  have hpid : p ≠ id := fun he => hpbNm (he ▸ hidInPb)
  have hl1 : lookupA (eraseA
      (setA a p { pb with children := rmv id pb.children }) id) id = none :=
    lookupA_eraseA_self (sortedA_setA hs)
  have hl2 : lookupA (eraseA
      (setA a p { pb with children := rmv id pb.children }) id) p =
      some { pb with children := rmv id pb.children } :=
    (lookupA_eraseA_ne hpid).trans (lookupA_setA_self hpb)
  have hpa' : parentsOf (eraseA
      (setA a p { pb with children := rmv id pb.children }) id) id = [] :=
    parentsOf_eraseA_nil
      (parentsOf_setA_drop hs hps hpb (not_mem_rmv_of_nodup hpbNd))
  have hidx' : idxOf id pb.children ≤ (rmv id pb.children).length := by
    have h1 := idxOf_lt_length hidInPb
    have h2 := length_rmv hidInPb
    omega
  refine ⟨.removeNode id, ?_⟩
  simp only [applyMutI, hl1, hl2]
  rw [if_pos ⟨hpa', hidx'⟩]
  simp only [insIdx_idxOf_rmv hidInPb, Block.eta]
  rw [← eraseA_setA hpid, setA_setA, setA_self hpb]
  have hb : (⟨b.flavour, b.props, []⟩ : Block) = b := by
    rw [← hch]
  rw [hb, insertA_eraseA hs hid]

/-- Inverting a property update: re-applying the recorded previous
bindings restores the arena exactly. -/
theorem updateProps_inv {a a' : Arena} {m' : Mut} {id : Nat}
    {us : List (String × Option Val)}
    (hok : (Mut.updateProps id us).fwdOK = true)
    (h : applyMutI (.updateProps id us) a = some (a', m')) :
    ∃ m'', applyMutI m' a' = some (a, m'') := by
  obtain ⟨b, hid, ha', hm'⟩ := updateProps_spec h
  subst ha'; subst hm'
  have hok' : ∀ u ∈ us, u.2.isSome := by
    intro u hu
    exact List.all_eq_true.mp hok u hu
  have hl1 : lookupA (setA a id { b with props := (applyUpds b.props us).1 }) id
      = some { b with props := (applyUpds b.props us).1 } :=
    lookupA_setA_self hid
  refine ⟨.updateProps id
    (applyUpds (applyUpds b.props us).1 (applyUpds b.props us).2).2, ?_⟩
  simp only [applyMutI, hl1]
  rw [show (applyUpds (applyUpds b.props us).1 (applyUpds b.props us).2).1
      = b.props from applyUpds_fst.trans (applyUpds_inv hok')]
  simp only [Block.eta]
  rw [setA_setA, setA_self hid]

/-- Inverting a node move: moving the node back to its recorded parent
and index restores the arena exactly. -/
theorem moveNode_inv {a a' : Arena} {m' : Mut} {id newParent newIndex : Nat}
    (hwf : WFarena a)
    (h : applyMutI (.moveNode id newParent newIndex) a = some (a', m')) :
    ∃ m'', applyMutI m' a' = some (a, m'') := by
  obtain ⟨hs, hent⟩ := hwf
  obtain ⟨bid, oldP, opb, npb, hid, hps, hop, hnp, hne, hidx, ha', hm'⟩ :=
    moveNode_spec h
  subst ha'; subst hm'
  obtain ⟨hopNd, hopNm⟩ := hent (oldP, opb) (lookupA_mem hop)
  have hidOp : id ∈ opb.children := parentsOf_single_mem hs hps hop
  have hido : id ≠ oldP := by
    intro he
    exact hopNm (he ▸ hidOp)
  have hp₁ : parentsOf (setA a oldP
      { opb with children := rmv id opb.children }) id = [] :=
    parentsOf_setA_drop hs hps hop (not_mem_rmv_of_nodup hopNd)
  have hidnp : id ∉ npb.children :=
    parentsOf_eq_nil_iff.mp hp₁ (newParent, npb) (lookupA_mem hnp)
  have hl1 : lookupA (setA (setA a oldP
      { opb with children := rmv id opb.children }) newParent
      { npb with children := insIdx newIndex id npb.children }) id =
      some bid :=
    (lookupA_setA_ne hne).trans ((lookupA_setA_ne hido).trans hid)
  have hpa' : parentsOf (setA (setA a oldP
      { opb with children := rmv id opb.children }) newParent
      { npb with children := insIdx newIndex id npb.children }) id =
      [newParent] :=
    parentsOf_setA_new hp₁ hnp (self_mem_insIdx _ _ _)
  have hl2 : lookupA (setA (setA a oldP
      { opb with children := rmv id opb.children }) newParent
      { npb with children := insIdx newIndex id npb.children }) newParent =
      some { npb with children := insIdx newIndex id npb.children } :=
    lookupA_setA_self hnp
  have hidxOld : idxOf id opb.children ≤ (rmv id opb.children).length := by
    have h1 := idxOf_lt_length hidOp
    have h2 := length_rmv hidOp
    omega
  refine ⟨.moveNode id newParent (idxOf id (insIdx newIndex id npb.children)), ?_⟩
  simp only [applyMutI, hl1, hpa', hl2]
  simp only [rmv_insIdx hidx hidnp, Block.eta]
  rw [setA_setA, setA_self hnp]
  have hl3 : lookupA (setA a oldP
      { opb with children := rmv id opb.children }) oldP =
      some { opb with children := rmv id opb.children } :=
    lookupA_setA_self hop
  simp only [hl3]
  rw [if_pos ⟨fun he => hido he, hidxOld⟩]
  simp only [insIdx_idxOf_rmv hidOp, Block.eta]
  rw [setA_setA, setA_self hop]

/-- Any successful forward mutation's computed inverse applies to the
result and restores the original arena exactly. -/
theorem applyMutI_inv {m : Mut} {a a' : Arena} {m' : Mut} (hwf : WFarena a)
    (hok : m.fwdOK = true) (h : applyMutI m a = some (a', m')) :
    ∃ m'', applyMutI m' a' = some (a, m'') := by
  cases m with
  | insertNode id fl props parent index => exact insertNode_inv hwf h
  | removeNode id => exact removeNode_inv hwf h
  | updateProps id us => exact updateProps_inv hok h
  | moveNode id newParent newIndex => exact moveNode_inv hwf h

theorem applyMuts_WF {ms : List Mut} {a a' : Arena} (hwf : WFarena a)
    (h : applyMuts ms a = some a') : WFarena a' := by
  induction ms generalizing a with
  | nil =>
    simp only [applyMuts] at h
    cases h
    exact hwf
  | cons m rest ih =>
    simp only [applyMuts] at h
    cases hm : applyMut m a with
    | none => rw [hm] at h; cases h
    | some a₁ =>
      rw [hm] at h
      cases hmi : applyMutI m a with
      | none => simp [applyMut, hmi] at hm
      | some p =>
        have : a₁ = p.1 := by
          simp only [applyMut, hmi, Option.map_some] at hm
          injection hm with h'
          exact h'.symm
        subst this
        exact ih (applyMutI_WF hwf hmi) h

/-- Applying the recorded inverse sequence to the final arena restores
the initial arena exactly. -/
theorem applyMutsI_inv {ms : List Mut} {a a' : Arena} {invs : List Mut}
    (hwf : WFarena a) (hok : ∀ m ∈ ms, m.fwdOK = true)
    (h : applyMutsI ms a = some (a', invs)) : applyMuts invs a' = some a := by
  induction ms generalizing a invs with
  | nil =>
    simp only [applyMutsI] at h
    injection h with h1
    injection h1 with h2 h3
    subst h2; subst h3
    simp [applyMuts]
  | cons m rest ih =>
    cases hm : applyMutI m a with
    | none => simp [applyMutsI, hm] at h
    | some p =>
      obtain ⟨a₁, m'⟩ := p
      cases hr : applyMutsI rest a₁ with
      | none => simp [applyMutsI, hm, hr] at h
      | some q =>
        obtain ⟨a'', invsR⟩ := q
        simp only [applyMutsI, hm, hr] at h
        injection h with h1
        injection h1 with h2 h3
        subst h2; subst h3
        have hwf₁ : WFarena a₁ := applyMutI_WF hwf hm
        have hIH : applyMuts invsR a'' = some a₁ :=
          ih hwf₁ (fun m₂ hm₂ => hok m₂ (List.mem_cons_of_mem _ hm₂)) hr
        rw [applyMuts_append, hIH]
        obtain ⟨m'', hm''⟩ :=
          applyMutI_inv hwf (hok m (List.mem_cons_self _ _)) hm
        simp [applyMuts, applyMut, hm'']

/-! ### Transaction engine and history manager

Modelled from the spec: the Transaction Engine (§4.3), Schema Registry
validation hooks (§4.1/§4.2), Reactive Subscription notifications
(§4.4) and the actor-scoped History Manager (§4.5) live in the
repository's store package, outside the provided sources; they are
modelled here from the specification's contracts. -/

inductive OriginKind where
  | interactive
  | silent
  | remote
deriving DecidableEq, Repr

/-- Transaction origin: actor id plus mode (§3, Glossary). -/
structure Origin where
  actor : Nat
  kind : OriginKind
deriving DecidableEq, Repr

inductive ErrorCode where
  | NoActiveTransaction
  | SchemaViolation
  | PropertyTypeMismatch
  | NotFound
  | CyclicMove
deriving DecidableEq, Repr

/-- Schema Registry hooks used by the Block Tree Model (§4.1). -/
structure Schema where
  validChild : String → String → Bool
  validProps : String → PropList → Bool

/-- History Entry (§3): actor, forward operations, inverse operations. -/
structure Entry where
  actorId : Nat
  forward : List Mut
  inverse : List Mut
deriving DecidableEq, Repr

/-- Reactive notifications (§4.4): block added/removed/updated (with
property-key diff)/moved. -/
inductive Notif where
  | added (id : Nat)
  | removed (id : Nat)
  | updated (id : Nat) (keys : List String)
  | moved (id : Nat)
deriving DecidableEq, Repr

def notifOf : Mut → Notif
  | .insertNode id _ _ _ _ => .added id
  | .removeNode id => .removed id
  | .updateProps id us => .updated id (us.map Prod.fst)
  | .moveNode id _ _ => .moved id

def notifsOf (ms : List Mut) : List Notif := ms.map notifOf

/-- Document state: block arena, the open mutation scope (if any) with
its accumulated forward/inverse operations, and the history stacks. -/
structure DocState where
  arena : Arena
  openTx : Option Origin
  txForward : List Mut
  txInverse : List Mut
  undoStack : List Entry
  redoStack : List Entry
deriving DecidableEq, Repr

/-- `addBlock` (§4.2): requires an open transaction, validates the
child-allowed relation and the property schema before any primitive
write, then inserts. -/
def addBlockApi (σ : Schema) (s : DocState) (id : Nat) (fl : String)
    (props : PropList) (parent index : Nat) : Except ErrorCode DocState :=
  match s.openTx with
  | none => .error .NoActiveTransaction
  | some _ =>
    match lookupA s.arena parent with
    | none => .error .NotFound
    | some pb =>
      if ¬ σ.validChild pb.flavour fl then .error .SchemaViolation
      else if ¬ σ.validProps fl props then .error .PropertyTypeMismatch
      else
        match applyMutI (.insertNode id fl props parent index) s.arena with
        | none => .error .NotFound
        | some (a', m') =>
          .ok { s with
            arena := a',
            txForward := s.txForward ++ [.insertNode id fl props parent index],
            txInverse := m' :: s.txInverse }

/-- `updateBlockProps` (§4.2): requires an open transaction; sets the
given property keys. -/
def updateBlockApi (s : DocState) (id : Nat)
    (updates : List (String × Val)) : Except ErrorCode DocState :=
  match s.openTx with
  | none => .error .NoActiveTransaction
  | some _ =>
    let us : List (String × Option Val) :=
      updates.map (fun kv => (kv.1, some kv.2))
    match applyMutI (.updateProps id us) s.arena with
    | none => .error .NotFound
    | some (a', m') =>
      .ok { s with
        arena := a',
        txForward := s.txForward ++ [.updateProps id us],
        txInverse := m' :: s.txInverse }

/-- Post-order traversal of a subtree, as removal operations: children
are removed before their parent's child-list entry (§4.2). -/
def subtreeRemovals (a : Arena) : Nat → Nat → List Mut
  | 0, id => [.removeNode id]
  | fuel + 1, id =>
    match lookupA a id with
    | none => [.removeNode id]
    | some b =>
      (b.children.map (subtreeRemovals a fuel)).flatten ++ [.removeNode id]

/-- `deleteBlock` (§4.2): cascades depth-first post-order. -/
def deleteBlockApi (s : DocState) (id : Nat) : Except ErrorCode DocState :=
  match s.openTx with
  | none => .error .NoActiveTransaction
  | some _ =>
    match lookupA s.arena id with
    | none => .error .NotFound
    | some _ =>
      let muts := subtreeRemovals s.arena s.arena.length id
      match applyMutsI muts s.arena with
      | none => .error .NotFound
      | some (a', invs) =>
        .ok { s with
          arena := a',
          txForward := s.txForward ++ muts,
          txInverse := invs ++ s.txInverse }

/-- Ancestor chain of a block, walking the derived parent relation. -/
def ancestorChain (a : Arena) : Nat → Nat → List Nat
  | 0, _ => []
  | fuel + 1, id =>
    match parentsOf a id with
    | [p] => p :: ancestorChain a fuel p
    | _ => []

/-- `moveBlock` (§4.2): re-validates the child-allowed relation against
the new parent and rejects cyclic moves before any primitive write. -/
def moveBlockApi (σ : Schema) (s : DocState) (id newParent newIndex : Nat) :
    Except ErrorCode DocState :=
  match s.openTx with
  | none => .error .NoActiveTransaction
  | some _ =>
    match lookupA s.arena id with
    | none => .error .NotFound
    | some b =>
      match lookupA s.arena newParent with
      | none => .error .NotFound
      | some npb =>
        if ¬ σ.validChild npb.flavour b.flavour then .error .SchemaViolation
        else if id = newParent ∨
            id ∈ ancestorChain s.arena s.arena.length newParent then
          .error .CyclicMove
        else
          match applyMutI (.moveNode id newParent newIndex) s.arena with
          | none => .error .NotFound
          | some (a', m') =>
            .ok { s with
              arena := a',
              txForward := s.txForward ++ [.moveNode id newParent newIndex],
              txInverse := m' :: s.txInverse }

/-- A transaction body: the mutation requests issued through the
mutation handle. -/
inductive Cmd where
  | add (id : Nat) (fl : String) (props : PropList) (parent index : Nat)
  | update (id : Nat) (updates : List (String × Val))
  | delete (id : Nat)
  | move (id newParent newIndex : Nat)
deriving DecidableEq, Repr

def runCmd (σ : Schema) (s : DocState) : Cmd → Except ErrorCode DocState
  | .add id fl props parent index => addBlockApi σ s id fl props parent index
  | .update id updates => updateBlockApi s id updates
  | .delete id => deleteBlockApi s id
  | .move id np ni => moveBlockApi σ s id np ni

def runCmds (σ : Schema) : List Cmd → DocState → Except ErrorCode DocState
  | [], s => .ok s
  | c :: rest, s =>
    match runCmd σ s c with
    | .error e => .error e
    | .ok s₁ => runCmds σ rest s₁

/-- Commit (§4.3–§4.5): reactive notifications always fire; only an
interactive-origin, non-empty transaction is recorded as a History
Entry, and only such a transaction clears its actor's redo stack.
Silent and remote origins are never recorded and clear nothing. -/
def commitTx (s : DocState) (o : Origin) : DocState × List Notif :=
  let base := { s with
    openTx := (none : Option Origin),
    txForward := ([] : List Mut),
    txInverse := ([] : List Mut) }
  let ν := notifsOf s.txForward
  if o.kind = .interactive ∧ s.txForward ≠ [] then
    ({ base with
        undoStack := base.undoStack ++ [⟨o.actor, s.txForward, s.txInverse⟩],
        redoStack := base.redoStack.filter (fun e => e.actorId != o.actor) }, ν)
  else (base, ν)

/-- `transact` (§4.3): opens a mutation scope (nested calls join the
outer scope), runs the body, and commits. -/
def transact (σ : Schema) (s : DocState) (o : Origin) (cmds : List Cmd) :
    Except ErrorCode (DocState × List Notif) :=
  match s.openTx with
  | some _ => (runCmds σ cmds s).map (fun s₁ => (s₁, ([] : List Notif)))
  | none =>
    match runCmds σ cmds
        { s with openTx := some o, txForward := [], txInverse := [] } with
    | .error e => .error e
    | .ok s₁ => .ok (commitTx s₁ o)

/-- `withoutTransact`: runs housekeeping mutations under a silent
origin — not user-undoable, but still notifying (§4.3). -/
def withoutTransact (σ : Schema) (s : DocState) (actor : Nat)
    (cmds : List Cmd) : Except ErrorCode (DocState × List Notif) :=
  transact σ s ⟨actor, .silent⟩ cmds

/-- `applyRemoteUpdate` (§6): a remote delta re-enters the system as a
remote-origin transaction. -/
def applyRemote (σ : Schema) (s : DocState) (actor : Nat)
    (cmds : List Cmd) : Except ErrorCode (DocState × List Notif) :=
  transact σ s ⟨actor, .remote⟩ cmds

/-- Pop the most recent stack entry satisfying a predicate. -/
def popLastBy (p : Entry → Bool) : List Entry → Option (List Entry × Entry)
  | [] => none
  | e :: rest =>
    match popLastBy p rest with
    | some (rest', x) => some (e :: rest', x)
    | none => if p e then some (rest, e) else none

/-- `undo(actor)` (§4.5): pops the most recent entry from the same
actor, applies its inverse operations (as a silent scope), and moves
the entry to the actor's redo stack. -/
def undo (s : DocState) (actor : Nat) : Option (DocState × List Notif) :=
  match popLastBy (fun e => e.actorId == actor) s.undoStack with
  | none => none
  | some (rest, e) =>
    match applyMuts e.inverse s.arena with
    | none => none
    | some a' =>
      some ({ s with
        arena := a',
        undoStack := rest,
        redoStack := s.redoStack ++ [e] }, notifsOf e.inverse)

/-- `redo(actor)` (§4.5): reverses `undo`. -/
def redo (s : DocState) (actor : Nat) : Option (DocState × List Notif) :=
  match popLastBy (fun e => e.actorId == actor) s.redoStack with
  | none => none
  | some (rest, e) =>
    match applyMuts e.forward s.arena with
    | none => none
    | some a' =>
      some ({ s with
        arena := a',
        redoStack := rest,
        undoStack := s.undoStack ++ [e] }, notifsOf e.forward)

theorem popLastBy_mem {p : Entry → Bool} {l rest : List Entry} {e : Entry}
    (h : popLastBy p l = some (rest, e)) : e ∈ l := by
  induction l generalizing rest with
  | nil => simp [popLastBy] at h
  | cons hd t ih =>
    simp only [popLastBy] at h
    cases hr : popLastBy p t with
    | some q =>
      obtain ⟨rest', x⟩ := q
      rw [hr] at h
      injection h with h1
      injection h1 with h2 h3
      subst h3
      exact List.mem_cons_of_mem _ (ih hr)
    | none =>
      rw [hr] at h
      split_ifs at h with hp
      injection h with h1
      injection h1 with h2 h3
      subst h3
      exact List.mem_cons_self _ _

theorem popLastBy_pred {p : Entry → Bool} {l rest : List Entry} {e : Entry}
    (h : popLastBy p l = some (rest, e)) : p e = true := by
  induction l generalizing rest with
  | nil => simp [popLastBy] at h
  | cons hd t ih =>
    simp only [popLastBy] at h
    cases hr : popLastBy p t with
    | some q =>
      obtain ⟨rest', x⟩ := q
      rw [hr] at h
      injection h with h1
      injection h1 with h2 h3
      subst h3
      exact ih hr
    | none =>
      rw [hr] at h
      split_ifs at h with hp
      injection h with h1
      injection h1 with h2 h3
      subst h3
      exact hp

/-- The most recent entry wins: popping from a stack whose last entry
matches returns exactly that entry and the remaining stack. -/
theorem popLastBy_append_last {p : Entry → Bool} {l : List Entry} {e : Entry}
    (hp : p e = true) : popLastBy p (l ++ [e]) = some (l, e) := by
  induction l with
  | nil => simp [popLastBy, hp]
  | cons hd t ih =>
    simp only [List.cons_append, popLastBy, List.append_eq, ih]

theorem addBlockApi_frame {σ : Schema} {s s₁ : DocState} {id : Nat}
    {fl : String} {props : PropList} {parent index : Nat}
    (h : addBlockApi σ s id fl props parent index = .ok s₁) :
    s₁.openTx = s.openTx ∧ s₁.undoStack = s.undoStack ∧
      s₁.redoStack = s.redoStack := by
  unfold addBlockApi at h
  split at h
  · cases h
  · split at h
    · cases h
    · split_ifs at h
      split at h
      · cases h
      · injection h with h1
        subst h1
        exact ⟨rfl, rfl, rfl⟩

theorem updateBlockApi_frame {s s₁ : DocState} {id : Nat}
    {updates : List (String × Val)}
    (h : updateBlockApi s id updates = .ok s₁) :
    s₁.openTx = s.openTx ∧ s₁.undoStack = s.undoStack ∧
      s₁.redoStack = s.redoStack := by
  unfold updateBlockApi at h
  split at h
  · cases h
  · dsimp only at h
    split at h
    · cases h
    · injection h with h1
      subst h1
      exact ⟨rfl, rfl, rfl⟩

theorem deleteBlockApi_frame {s s₁ : DocState} {id : Nat}
    (h : deleteBlockApi s id = .ok s₁) :
    s₁.openTx = s.openTx ∧ s₁.undoStack = s.undoStack ∧
      s₁.redoStack = s.redoStack := by
  unfold deleteBlockApi at h
  split at h
  · cases h
  · split at h
    · cases h
    · dsimp only at h
      split at h
      · cases h
      · injection h with h1
        subst h1
        exact ⟨rfl, rfl, rfl⟩

theorem moveBlockApi_frame {σ : Schema} {s s₁ : DocState}
    {id newParent newIndex : Nat}
    (h : moveBlockApi σ s id newParent newIndex = .ok s₁) :
    s₁.openTx = s.openTx ∧ s₁.undoStack = s.undoStack ∧
      s₁.redoStack = s.redoStack := by
  unfold moveBlockApi at h
  split at h
  · cases h
  · split at h
    · cases h
    · split at h
      · cases h
      · split_ifs at h
        split at h
        · cases h
        · injection h with h1
          subst h1
          exact ⟨rfl, rfl, rfl⟩

theorem runCmd_frame {σ : Schema} {s s₁ : DocState} {c : Cmd}
    (h : runCmd σ s c = .ok s₁) :
    s₁.openTx = s.openTx ∧ s₁.undoStack = s.undoStack ∧
      s₁.redoStack = s.redoStack := by
  cases c with
  | add id fl props parent index => exact addBlockApi_frame h
  | update id updates => exact updateBlockApi_frame h
  | delete id => exact deleteBlockApi_frame h
  | move id np ni => exact moveBlockApi_frame h

theorem runCmds_frame {σ : Schema} {cmds : List Cmd} {s s₁ : DocState}
    (h : runCmds σ cmds s = .ok s₁) :
    s₁.openTx = s.openTx ∧ s₁.undoStack = s.undoStack ∧
      s₁.redoStack = s.redoStack := by
  induction cmds generalizing s with
  | nil =>
    simp only [runCmds] at h
    injection h with h1
    subst h1
    exact ⟨rfl, rfl, rfl⟩
  | cons c rest ih =>
    simp only [runCmds] at h
    cases hc : runCmd σ s c with
    | error e => rw [hc] at h; cases h
    | ok s₂ =>
      rw [hc] at h
      obtain ⟨h1, h2, h3⟩ := runCmd_frame hc
      obtain ⟨h4, h5, h6⟩ := ih h
      exact ⟨h4.trans h1, h5.trans h2, h6.trans h3⟩

/-! ### Embedded store callers from the embed-video utilities -/

/-- From `video-timestamp.ts`, `captureYouTubeTimestamp` (lines 54–70):
inserts an `'affine:paragraph'` block holding `"<timestamp> :"` at
`index + 1` under the video's parent, via `ctx.store.addBlock`, opening
no transaction itself. -/
def captureTimestampAddBlock (σ : Schema) (s : DocState) (newId : Nat)
    (timestamp : String) (parent index : Nat) : Except ErrorCode DocState :=
  addBlockApi σ s newId "affine:paragraph"
    [("text", .str (timestamp ++ " :"))] parent (index + 1)

/-- From `video-summarize.ts`, `summarizeVideo` (lines 150–157):
inserts an `'affine:paragraph'` block holding the summary text at
`index + 1` under the video's parent, via `ctx.store.addBlock`, opening
no transaction itself. -/
def summarizeAddBlock (σ : Schema) (s : DocState) (newId : Nat)
    (summary : String) (parent index : Nat) : Except ErrorCode DocState :=
  addBlockApi σ s newId "affine:paragraph" [("text", .str summary)]
    parent (index + 1)

/-- C1: every block-tree mutation call (addBlock, updateBlock,
deleteBlock, moveBlock) executes inside an open transaction; a call
made with no open transaction is reported as `NoActiveTransaction` and
yields no successor state (the tree is not touched).  In particular the
`addBlock` calls issued by the timestamp-capture and summarize
utilities, which open no transaction themselves, fail this way whenever
no transaction has been opened for them. -/
theorem mutations_require_open_transaction (σ : Schema) (s : DocState)
    (hno : s.openTx = none) :
    (∀ id fl props parent index,
      addBlockApi σ s id fl props parent index =
        .error .NoActiveTransaction) ∧
    (∀ id updates,
      updateBlockApi s id updates = .error .NoActiveTransaction) ∧
    (∀ id, deleteBlockApi s id = .error .NoActiveTransaction) ∧
    (∀ id np ni,
      moveBlockApi σ s id np ni = .error .NoActiveTransaction) ∧
    (∀ newId ts parent index,
      captureTimestampAddBlock σ s newId ts parent index =
        .error .NoActiveTransaction) ∧
    (∀ newId summary parent index,
      summarizeAddBlock σ s newId summary parent index =
        .error .NoActiveTransaction) := by
  refine ⟨?_, ?_, ?_, ?_, ?_, ?_⟩
  · intro id fl props parent index
    simp [addBlockApi, hno]
  · intro id updates
    simp [updateBlockApi, hno]
  · intro id
    simp [deleteBlockApi, hno]
  · intro id np ni
    simp [moveBlockApi, hno]
  · intro newId ts parent index
    simp [captureTimestampAddBlock, addBlockApi, hno]
  · intro newId summary parent index
    simp [summarizeAddBlock, addBlockApi, hno]

/-- Closed instance of C1 at a concrete document state. -/
theorem mutations_require_open_transaction_witness :
    addBlockApi ⟨fun _ _ => true, fun _ _ => true⟩
        ⟨[(0, ⟨"affine:page", [], []⟩)], none, [], [], [], []⟩
        1 "affine:paragraph" [] 0 0 = .error .NoActiveTransaction ∧
    captureTimestampAddBlock ⟨fun _ _ => true, fun _ _ => true⟩
        ⟨[(0, ⟨"affine:page", [], []⟩)], none, [], [], [], []⟩
        1 "2:35" 0 0 = .error .NoActiveTransaction ∧
    summarizeAddBlock ⟨fun _ _ => true, fun _ _ => true⟩
        ⟨[(0, ⟨"affine:page", [], []⟩)], none, [], [], [], []⟩
        1 "A video summary" 0 0 = .error .NoActiveTransaction := by
  obtain ⟨h1, _, _, _, h5, h6⟩ := mutations_require_open_transaction
    ⟨fun _ _ => true, fun _ _ => true⟩
    ⟨[(0, ⟨"affine:page", [], []⟩)], none, [], [], [], []⟩ rfl
  exact ⟨h1 1 "affine:paragraph" [] 0 0, h5 1 "2:35" 0 0,
    h6 1 "A video summary" 0 0⟩

/-- C4: with a transaction open, `addBlock` rejects a disallowed child
with `SchemaViolation` and a property-schema failure with
`PropertyTypeMismatch`; in both cases the call produces an error and no
successor state, so the caller's tree is untouched (all-or-nothing per
call: validation precedes every primitive write).  A successful call
certifies that both validations passed. -/
theorem addBlock_validation_all_or_nothing (σ : Schema) (s : DocState)
    (id : Nat) (fl : String) (props : PropList) (parent index : Nat)
    (o : Origin) (pb : Block) (htx : s.openTx = some o)
    (hpar : lookupA s.arena parent = some pb) :
    (σ.validChild pb.flavour fl = false →
      addBlockApi σ s id fl props parent index = .error .SchemaViolation) ∧
    (σ.validChild pb.flavour fl = true → σ.validProps fl props = false →
      addBlockApi σ s id fl props parent index =
        .error .PropertyTypeMismatch) ∧
    (∀ s₁, addBlockApi σ s id fl props parent index = .ok s₁ →
      σ.validChild pb.flavour fl = true ∧ σ.validProps fl props = true) := by
  refine ⟨?_, ?_, ?_⟩
  · intro hvc
    simp [addBlockApi, htx, hpar, hvc]
  · intro hvc hvp
    simp [addBlockApi, htx, hpar, hvc, hvp]
  · intro s₁ h
    unfold addBlockApi at h
    rw [htx] at h
    simp only [hpar] at h
    by_cases hvc : σ.validChild pb.flavour fl
    · by_cases hvp : σ.validProps fl props
      · exact ⟨hvc, hvp⟩
      · simp [hvc, hvp] at h
    · simp [hvc] at h

/-- Closed instance of C4: `item` under `page` disallowed, and a
property failure, both rejected with the tree untouched. -/
theorem addBlock_validation_all_or_nothing_witness :
    (addBlockApi ⟨fun p c => p = "page" && c = "paragraph", fun _ _ => true⟩
        ⟨[(0, ⟨"page", [], []⟩)], some ⟨7, .interactive⟩, [], [], [], []⟩
        1 "item" [] 0 0 = .error .SchemaViolation) ∧
    (addBlockApi ⟨fun _ _ => true, fun _ props => props.isEmpty⟩
        ⟨[(0, ⟨"page", [], []⟩)], some ⟨7, .interactive⟩, [], [], [], []⟩
        1 "paragraph" [("text", .str "x")] 0 0 =
      .error .PropertyTypeMismatch) := by
  constructor
  · exact (addBlock_validation_all_or_nothing
      ⟨fun p c => p = "page" && c = "paragraph", fun _ _ => true⟩
      ⟨[(0, ⟨"page", [], []⟩)], some ⟨7, .interactive⟩, [], [], [], []⟩
      1 "item" [] 0 0 ⟨7, .interactive⟩ ⟨"page", [], []⟩ rfl rfl).1
      (by decide)
  · exact (addBlock_validation_all_or_nothing
      ⟨fun _ _ => true, fun _ props => props.isEmpty⟩
      ⟨[(0, ⟨"page", [], []⟩)], some ⟨7, .interactive⟩, [], [], [], []⟩
      1 "paragraph" [("text", .str "x")] 0 0 ⟨7, .interactive⟩
      ⟨"page", [], []⟩ rfl rfl).2.1 rfl (by decide)

/-- From `EmbedYoutubeBlockComponent.connectedCallback` (part_001,
lines 220–241): when `videoId` is missing it runs
`store.withoutTransact(() => store.updateBlock(model, { videoId }))` —
a silent-origin backfill of the extracted video id. -/
def backfillVideoId (σ : Schema) (s : DocState) (actor blockId : Nat)
    (vid : String) : Except ErrorCode (DocState × List Notif) :=
  withoutTransact σ s actor [.update blockId [("videoId", .str vid)]]

/-- C3: the silent-origin `withoutTransact` backfill of `videoId` adds
no entry to any actor's undo stack (and clears no redo stack), yet
still emits the reactive `updated` notification carrying the
`"videoId"` key, which the `propsUpdated` subscription observes. -/
theorem silent_backfill_unrecorded_but_notifies (σ : Schema)
    (s : DocState) (actor blockId : Nat) (vid : String) (b : Block)
    (hno : s.openTx = none) (hb : lookupA s.arena blockId = some b) :
    backfillVideoId σ s actor blockId vid =
      .ok ({ s with
        arena := setA s.arena blockId
          { b with props := setProp b.props "videoId" (.str vid) },
        openTx := none,
        txForward := [],
        txInverse := [] }, [.updated blockId ["videoId"]]) ∧
    (∀ s' ν, backfillVideoId σ s actor blockId vid = .ok (s', ν) →
      s'.undoStack = s.undoStack ∧ s'.redoStack = s.redoStack) := by
  have hmain : backfillVideoId σ s actor blockId vid =
      .ok ({ s with
        arena := setA s.arena blockId
          { b with props := setProp b.props "videoId" (.str vid) },
        openTx := none,
        txForward := [],
        txInverse := [] }, [.updated blockId ["videoId"]]) := by
    unfold backfillVideoId withoutTransact transact
    rw [hno]
    simp only [runCmds, runCmd, updateBlockApi, applyMutI, hb, List.map_cons,
      List.map_nil, applyUpds, applyUpd1, invUpd1, commitTx, notifsOf, notifOf]
    simp [commitTx, notifsOf, notifOf, applyUpds, applyUpd1]
  refine ⟨hmain, ?_⟩
  intro s' ν h
  rw [hmain] at h
  injection h with h1
  injection h1 with h2 h3
  subst h2
  exact ⟨rfl, rfl⟩

/-- Closed instance of C3 at a concrete youtube-embed document. -/
theorem silent_backfill_witness :
    backfillVideoId ⟨fun _ _ => true, fun _ _ => true⟩
      ⟨[(0, ⟨"affine:page", [], [1]⟩),
        (1, ⟨"affine:embed-youtube",
          [("url", .str "https://youtu.be/dQw4w9WgXcQ")], []⟩)],
        none, [], [], [], []⟩ 7 1 "dQw4w9WgXcQ" =
    .ok (⟨[(0, ⟨"affine:page", [], [1]⟩),
        (1, ⟨"affine:embed-youtube",
          [("url", .str "https://youtu.be/dQw4w9WgXcQ"),
           ("videoId", .str "dQw4w9WgXcQ")], []⟩)],
        none, [], [], [], []⟩, [.updated 1 ["videoId"]]) := by
  have h := (silent_backfill_unrecorded_but_notifies
    ⟨fun _ _ => true, fun _ _ => true⟩
    ⟨[(0, ⟨"affine:page", [], [1]⟩),
      (1, ⟨"affine:embed-youtube",
        [("url", .str "https://youtu.be/dQw4w9WgXcQ")], []⟩)],
      none, [], [], [], []⟩ 7 1 "dQw4w9WgXcQ"
    ⟨"affine:embed-youtube",
      [("url", .str "https://youtu.be/dQw4w9WgXcQ")], []⟩ rfl rfl).1
  rw [h]
  rfl

/-- C5: a remote-origin transaction is never pushed onto any actor's
undo stack and never clears any redo stack; and `undo(actor)` only ever
reverts an entry recorded by that same actor — the state change it
applies is exactly that entry's inverse operations. -/
theorem remote_never_recorded_undo_own_only (σ : Schema)
    (s s' : DocState) (actor : Nat) (cmds : List Cmd) (ν : List Notif)
    (s₂ s₃ : DocState) (actor₂ : Nat) (ν₂ : List Notif) :
    (applyRemote σ s actor cmds = .ok (s', ν) →
      s'.undoStack = s.undoStack ∧ s'.redoStack = s.redoStack) ∧
    (undo s₂ actor₂ = some (s₃, ν₂) →
      ∃ e, e ∈ s₂.undoStack ∧ e.actorId = actor₂ ∧
        applyMuts e.inverse s₂.arena = some s₃.arena) := by
  constructor
  · intro h
    unfold applyRemote transact at h
    cases hno : s.openTx with
    | some o =>
      simp only [hno] at h
      cases hr : runCmds σ cmds s with
      | error e => simp [hr, Except.map] at h
      | ok s₁ =>
        rw [hr] at h
        simp only [Except.map] at h
        injection h with h1
        injection h1 with h2 h3
        subst h2
        obtain ⟨_, h5, h6⟩ := runCmds_frame hr
        exact ⟨h5, h6⟩
    | none =>
      simp only [hno] at h
      cases hr : runCmds σ cmds
          { s with
            openTx := some ⟨actor, .remote⟩,
            txForward := [],
            txInverse := [] } with
      | error e => rw [hr] at h; cases h
      | ok s₁ =>
        rw [hr] at h
        injection h with h1
        obtain ⟨_, h5, h6⟩ := runCmds_frame hr
        have hck : commitTx s₁ ⟨actor, .remote⟩ =
            ({ s₁ with
              openTx := none,
              txForward := [],
              txInverse := [] },
              notifsOf s₁.txForward) := by
          unfold commitTx
          rw [if_neg (by simp)]
        rw [hck] at h1
        injection h1 with h2 h3
        subst h2
        exact ⟨h5, h6⟩
  · intro h
    unfold undo at h
    cases hp : popLastBy (fun e => e.actorId == actor₂) s₂.undoStack with
    | none => rw [hp] at h; cases h
    | some q =>
      obtain ⟨rest, e⟩ := q
      simp only [hp] at h
      cases ha : applyMuts e.inverse s₂.arena with
      | none => simp only [ha] at h; cases h
      | some a' =>
        simp only [ha] at h
        injection h with h1
        injection h1 with h2 h3
        subst h2
        refine ⟨e, popLastBy_mem hp, ?_, ha⟩
        have hb := popLastBy_pred hp
        simpa using hb

/-- Closed instance of C5: a remote transaction leaves a populated undo
stack and an undo applies the popped own entry's inverse. -/
theorem remote_never_recorded_undo_own_only_witness :
    (∃ s' ν, applyRemote ⟨fun _ _ => true, fun _ _ => true⟩
        ⟨[(0, ⟨"affine:page", [], []⟩)], none, [], [],
          [⟨7, [.updateProps 0 [("t", some (.str "x"))]],
            [.updateProps 0 [("t", none)]]⟩], []⟩ 99
        [.add 1 "affine:paragraph" [] 0 0] = .ok (s', ν) ∧
      s'.undoStack =
        [⟨7, [.updateProps 0 [("t", some (.str "x"))]],
          [.updateProps 0 [("t", none)]]⟩] ∧
      s'.redoStack = []) ∧
    (∃ e, e ∈ [(⟨7, [Mut.insertNode 1 "affine:paragraph" [] 0 0],
        [Mut.removeNode 1]⟩ : Entry)] ∧ e.actorId = 7 ∧
      applyMuts e.inverse
        [(0, ⟨"affine:page", [], [1]⟩), (1, ⟨"affine:paragraph", [], []⟩)] =
        some [(0, ⟨"affine:page", [], []⟩)]) := by
  constructor
  · have hval : applyRemote ⟨fun _ _ => true, fun _ _ => true⟩
        ⟨[(0, ⟨"affine:page", [], []⟩)], none, [], [],
          [⟨7, [.updateProps 0 [("t", some (.str "x"))]],
            [.updateProps 0 [("t", none)]]⟩], []⟩ 99
        [.add 1 "affine:paragraph" [] 0 0] =
        .ok (⟨[(0, ⟨"affine:page", [], [1]⟩),
          (1, ⟨"affine:paragraph", [], []⟩)], none, [], [],
          [⟨7, [.updateProps 0 [("t", some (.str "x"))]],
            [.updateProps 0 [("t", none)]]⟩], []⟩, [.added 1]) := by
      rfl
    obtain ⟨h5, h6⟩ := (remote_never_recorded_undo_own_only
      ⟨fun _ _ => true, fun _ _ => true⟩
      ⟨[(0, ⟨"affine:page", [], []⟩)], none, [], [],
        [⟨7, [.updateProps 0 [("t", some (.str "x"))]],
          [.updateProps 0 [("t", none)]]⟩], []⟩
      ⟨[(0, ⟨"affine:page", [], [1]⟩),
        (1, ⟨"affine:paragraph", [], []⟩)], none, [], [],
        [⟨7, [.updateProps 0 [("t", some (.str "x"))]],
          [.updateProps 0 [("t", none)]]⟩], []⟩
      99 [.add 1 "affine:paragraph" [] 0 0] [.added 1]
      ⟨[], none, [], [], [], []⟩ ⟨[], none, [], [], [], []⟩ 0 []).1 hval
    exact ⟨_, _, hval, h5, h6⟩
  · have hundo : undo
        ⟨[(0, ⟨"affine:page", [], [1]⟩), (1, ⟨"affine:paragraph", [], []⟩)],
          none, [], [],
          [⟨7, [Mut.insertNode 1 "affine:paragraph" [] 0 0],
            [Mut.removeNode 1]⟩], []⟩ 7 =
        some (⟨[(0, ⟨"affine:page", [], []⟩)], none, [], [], [],
          [⟨7, [Mut.insertNode 1 "affine:paragraph" [] 0 0],
            [Mut.removeNode 1]⟩]⟩, [.removed 1]) := by
      rfl
    obtain ⟨e, hmem, hact, happ⟩ := (remote_never_recorded_undo_own_only
      ⟨fun _ _ => true, fun _ _ => true⟩
      ⟨[], none, [], [], [], []⟩ ⟨[], none, [], [], [], []⟩ 0 [] []
      ⟨[(0, ⟨"affine:page", [], [1]⟩), (1, ⟨"affine:paragraph", [], []⟩)],
        none, [], [],
        [⟨7, [Mut.insertNode 1 "affine:paragraph" [] 0 0],
          [Mut.removeNode 1]⟩], []⟩
      ⟨[(0, ⟨"affine:page", [], []⟩)], none, [], [], [],
        [⟨7, [Mut.insertNode 1 "affine:paragraph" [] 0 0],
          [Mut.removeNode 1]⟩]⟩ 7 [.removed 1]).2 hundo
    exact ⟨e, hmem, hact, happ⟩

/-- C6: from a state reached by a single-actor edit history with no
intervening remote or other-actor transactions — so the most recent
History Entry belongs to the acting actor and records the forward
operations that produced the current tree together with their computed
inverses — `undo(actor)` immediately followed by `redo(actor)` restores
the document (block tree and both history stacks) to exactly its
pre-undo state. -/
theorem undo_redo_roundtrip (s : DocState) (actor : Nat) (e : Entry)
    (rest₀ : List Entry) (a₀ : Arena)
    (hstack : s.undoStack = rest₀ ++ [e]) (hactor : e.actorId = actor)
    (hwf : WFarena a₀) (hok : ∀ m ∈ e.forward, m.fwdOK = true)
    (hrec : applyMutsI e.forward a₀ = some (s.arena, e.inverse)) :
    ∃ s₁ ν₁ ν₂, undo s actor = some (s₁, ν₁) ∧
      redo s₁ actor = some (s, ν₂) := by
  have hpop : popLastBy (fun e' => e'.actorId == actor) (rest₀ ++ [e]) =
      some (rest₀, e) := popLastBy_append_last (by simp [hactor])
  have hinv : applyMuts e.inverse s.arena = some a₀ :=
    applyMutsI_inv hwf hok hrec
  have hfwd : applyMuts e.forward a₀ = some s.arena := applyMutsI_fst hrec
  refine ⟨{ s with
      arena := a₀,
      undoStack := rest₀,
      redoStack := s.redoStack ++ [e] }, notifsOf e.inverse,
    notifsOf e.forward, ?_, ?_⟩
  · unfold undo
    rw [hstack, hpop]
    simp only [hinv]
  · unfold redo
    have hp2 : popLastBy (fun e' => e'.actorId == actor)
        (s.redoStack ++ [e]) = some (s.redoStack, e) :=
      popLastBy_append_last (by simp [hactor])
    simp only [hp2, hfwd]
    have hs : { s with
        arena := s.arena,
        undoStack := rest₀ ++ [e],
        redoStack := s.redoStack } = s := by
      rw [← hstack]
    rw [hs]

/-- Closed instance of C6: add a paragraph as actor 7, undo, redo —
the document returns to its exact pre-undo state. -/
theorem undo_redo_roundtrip_witness :
    ∃ s₁ ν₁ ν₂,
      undo ⟨[(0, ⟨"affine:page", [], [1]⟩),
        (1, ⟨"affine:paragraph", [("text", .str "a")], []⟩)],
        none, [], [],
        [⟨7, [.insertNode 1 "affine:paragraph" [("text", .str "a")] 0 0],
          [.removeNode 1]⟩], []⟩ 7 = some (s₁, ν₁) ∧
      redo s₁ 7 = some (⟨[(0, ⟨"affine:page", [], [1]⟩),
        (1, ⟨"affine:paragraph", [("text", .str "a")], []⟩)],
        none, [], [],
        [⟨7, [.insertNode 1 "affine:paragraph" [("text", .str "a")] 0 0],
          [.removeNode 1]⟩], []⟩, ν₂) :=
  undo_redo_roundtrip
    ⟨[(0, ⟨"affine:page", [], [1]⟩),
      (1, ⟨"affine:paragraph", [("text", .str "a")], []⟩)],
      none, [], [],
      [⟨7, [.insertNode 1 "affine:paragraph" [("text", .str "a")] 0 0],
        [.removeNode 1]⟩], []⟩ 7
    ⟨7, [.insertNode 1 "affine:paragraph" [("text", .str "a")] 0 0],
      [.removeNode 1]⟩ []
    [(0, ⟨"affine:page", [], []⟩)]
    rfl rfl (by decide) (by decide) (by decide)

/-! ### Replica convergence

Modelled from the spec: the replicated-primitive substrate (§2, §5) is
an external library whose merge is associative, commutative and
idempotent; each local mutation is tagged with a unique actor/origin
identifier.  A replica's state is the canonical (id-sorted,
duplicate-free) set of tagged update items it has merged; a delta is a
list of such items; merging inserts each item, skipping ids already
present. -/

/-- One tagged substrate update: unique id plus the primitive write it
carries. -/
structure UpdateItem where
  uid : Nat
  op : Mut
deriving DecidableEq, Repr

/-- Ordered, deduplicating insertion of one update item. -/
def insD : UpdateItem → List UpdateItem → List UpdateItem
  | x, [] => [x]
  | x, y :: rest =>
    if x.uid < y.uid then x :: y :: rest
    else if x.uid = y.uid then y :: rest
    else y :: insD x rest

/-- Merge a delta into a replica state. -/
def mergeDelta (s : List UpdateItem) (d : List UpdateItem) :
    List UpdateItem :=
  d.foldl (fun acc x => insD x acc) s

/-- Deterministically materialise the block tree from a replica
state. -/
def materializeTree (root : Arena) (s : List UpdateItem) : Arena :=
  s.foldl (fun a it => (applyMut it.op a).getD a) root

theorem insD_comm {x y : UpdateItem} {s : List UpdateItem}
    (hxy : x.uid = y.uid → x = y) :
    insD x (insD y s) = insD y (insD x s) := by
  induction s with
  | nil =>
    by_cases h1 : x.uid < y.uid
    · have h2 : ¬ y.uid < x.uid := by omega
      have h3 : ¬ y.uid = x.uid := by omega
      simp [insD, h1, h2, h3]
    · by_cases h2 : x.uid = y.uid
      · have := hxy h2
        subst this
        rfl
      · have h3 : y.uid < x.uid := by omega
        have h4 : ¬ y.uid = x.uid := by omega
        simp [insD, h1, h2, h3, (by omega : ¬ x.uid < y.uid)]
  | cons z rest ih =>
    by_cases hxz : x.uid < z.uid <;> by_cases hyz : y.uid < z.uid <;>
      by_cases hxy' : x.uid < y.uid
    · -- x < z, y < z, x < y
      have : ¬ y.uid < x.uid := by omega
      have : ¬ y.uid = x.uid := by omega
      simp [insD, hxz, hyz, hxy', *, (by omega : ¬ y.uid < x.uid),
        (by omega : ¬ y.uid = x.uid)]
    · by_cases hexy : x.uid = y.uid
      · have := hxy hexy
        subst this
        rfl
      · -- x < z, y < z, y < x
        have hyx : y.uid < x.uid := by omega
        simp [insD, hxz, hyz, hxy', hexy, hyx,
          (by omega : ¬ x.uid = y.uid)]
    · -- x < z, ¬ y < z, x < y : then x < y and y ≥ z > x, so y ≥ z
      by_cases heyz : y.uid = z.uid
      · simp [insD, hxz, hyz, heyz, hxy',
          (by omega : ¬ y.uid < x.uid), (by omega : ¬ y.uid = x.uid)]
        rw [if_neg (by omega)]
      · simp [insD, hxz, hyz, heyz, hxy',
          (by omega : ¬ y.uid < x.uid), (by omega : ¬ y.uid = x.uid)]
        rw [if_neg (by omega), if_neg (by omega)]
    · -- x < z, ¬ y < z, ¬ x < y: x < z ≤ y and y ≤ x: contradiction or x = y
      by_cases hexy : x.uid = y.uid
      · have := hxy hexy
        subst this
        rfl
      · omega
    · -- ¬ x < z, y < z, x < y: z ≤ x < y < z: contradiction
      omega
    · -- ¬ x < z, y < z, ¬ x < y
      by_cases hexz : x.uid = z.uid
      · simp [insD, hxz, hyz, hexz, (by omega : y.uid < x.uid),
          (by omega : ¬ x.uid < y.uid), (by omega : ¬ x.uid = y.uid)]
        omega
      · simp [insD, hxz, hyz, hexz, (by omega : y.uid < x.uid),
          (by omega : ¬ x.uid < y.uid), (by omega : ¬ x.uid = y.uid)]
        rw [if_neg (by omega), if_neg (by omega)]
    · -- ¬ x < z, ¬ y < z, x < y
      by_cases hexz : x.uid = z.uid
      · by_cases heyz : y.uid = z.uid
        · omega
        · simp [insD, hxz, hyz, hexz, heyz, (by omega : ¬ y.uid < z.uid)]
      · by_cases heyz : y.uid = z.uid
        · simp [insD, hxz, hyz, hexz, heyz,
            (by omega : ¬ x.uid < z.uid)]
        · simp only [insD, if_neg hxz, if_neg hexz, if_neg hyz,
            if_neg heyz]
          rw [ih]
    · -- ¬ x < z, ¬ y < z, ¬ x < y
      by_cases hexy : x.uid = y.uid
      · have := hxy hexy
        subst this
        rfl
      · by_cases hexz : x.uid = z.uid
        · by_cases heyz : y.uid = z.uid
          · omega
          · simp [insD, hxz, hyz, hexz, heyz,
              (by omega : ¬ y.uid < z.uid)]
        · by_cases heyz : y.uid = z.uid
          · simp [insD, hxz, hyz, hexz, heyz,
              (by omega : ¬ x.uid < z.uid)]
          · simp only [insD, if_neg hxz, if_neg hexz, if_neg hyz,
              if_neg heyz]
            rw [ih]

theorem insD_mergeDelta {x : UpdateItem} {s d : List UpdateItem}
    (hc : ∀ y ∈ d, x.uid = y.uid → x = y) :
    mergeDelta (insD x s) d = insD x (mergeDelta s d) := by
  induction d generalizing s with
  | nil => rfl
  | cons y d' ih =>
    show mergeDelta (insD y (insD x s)) d' = _
    rw [← insD_comm (hc y (List.mem_cons_self _ _))]
    exact ih (fun z hz => hc z (List.mem_cons_of_mem _ hz))

theorem mergeDelta_comm {s dA dB : List UpdateItem}
    (hc : ∀ x ∈ dA, ∀ y ∈ dB, x.uid = y.uid → x = y) :
    mergeDelta (mergeDelta s dA) dB = mergeDelta (mergeDelta s dB) dA := by
  induction dA generalizing s with
  | nil => rfl
  | cons x dA' ih =>
    show mergeDelta (mergeDelta (insD x s) dA') dB = _
    rw [ih (fun z hz y hy => hc z (List.mem_cons_of_mem _ hz) y hy)]
    rw [insD_mergeDelta (fun y hy => hc x (List.mem_cons_self _ _) y hy)]
    rfl

/-- C7: for concurrent transaction batches applied at replicas A and B
(whose substrate updates carry distinct ids, as concurrency
guarantees), exchanging deltas yields identical replica states —
regardless of delivery order — and therefore identical materialised
block trees at both replicas. -/
theorem concurrent_delta_exchange_converges (s₀ dA dB : List UpdateItem)
    (root : Arena)
    (hc : ∀ x ∈ dA, ∀ y ∈ dB, x.uid = y.uid → x = y) :
    mergeDelta (mergeDelta s₀ dA) dB = mergeDelta (mergeDelta s₀ dB) dA ∧
    materializeTree root (mergeDelta (mergeDelta s₀ dA) dB) =
      materializeTree root (mergeDelta (mergeDelta s₀ dB) dA) := by
  have h := mergeDelta_comm (s := s₀) hc
  exact ⟨h, by rw [h]⟩

/-- Closed instance of C7: two replicas each insert a distinct block
concurrently; after exchanging deltas both reach the same state and
tree. -/
theorem concurrent_delta_exchange_converges_witness :
    mergeDelta (mergeDelta []
      [⟨10, .insertNode 1 "affine:paragraph" [] 0 0⟩])
      [⟨20, .insertNode 2 "affine:list" [] 0 0⟩] =
    mergeDelta (mergeDelta []
      [⟨20, .insertNode 2 "affine:list" [] 0 0⟩])
      [⟨10, .insertNode 1 "affine:paragraph" [] 0 0⟩] :=
  (concurrent_delta_exchange_converges []
    [⟨10, .insertNode 1 "affine:paragraph" [] 0 0⟩]
    [⟨20, .insertNode 2 "affine:list" [] 0 0⟩]
    [(0, ⟨"affine:page", [], []⟩)] (by decide)).1

/-! ### OpenAI service (`openai-service.ts`) -/

/-- `OpenAIConfig` (lines 4–9). -/
structure OpenAIConfig where
  apiKey : String
  model : Option String := none
  visionModel : Option String := none
  endpoint : Option String := none
deriving DecidableEq, Repr

/-- The mutable service state: `private config: OpenAIConfig | null`. -/
structure OpenAIServiceState where
  config : Option OpenAIConfig
deriving DecidableEq, Repr

/-- `isConfigured()` (lines 107–109):
`this.config !== null && this.config.apiKey.length > 0`. -/
def isConfigured (s : OpenAIServiceState) : Bool :=
  match s.config with
  | none => false
  | some c => c.apiKey.length > 0

/-- `configure(config)` (lines 68–78): stores the config with defaulted
model/visionModel/endpoint. -/
def configure (s : OpenAIServiceState) (c : OpenAIConfig) :
    OpenAIServiceState :=
  { s with config := some ⟨c.apiKey, some (c.model.getD "gpt-4o"),
      some (c.visionModel.getD "gpt-4o"),
      some (c.endpoint.getD "https://api.openai.com/v1/chat/completions")⟩ }

/-- `VideoSummaryOptions` (lines 16–21); frames carried as data URLs. -/
structure VideoSummaryOptions where
  title : Option String := none
  description : Option String := none
  transcript : Option String := none
  frames : List String := []
deriving DecidableEq, Repr

/-- Outcome of `summarizeVideo` up to the point of the network call:
either the pre-flight rejection, or the `fetch` it would issue. -/
inductive SummarizeStep where
  | rejected (message : String)
  | networkRequest (endpoint : Option String) (model : Option String)
      (maxTokens : Nat)
deriving DecidableEq, Repr

/-- `summarizeVideo` (lines 122–153), up to the network call: rejects
before any request when unconfigured, otherwise picks the vision/text
model and token budget and issues the request; the stored configuration
is never written. -/
def summarizeVideo (s : OpenAIServiceState)
    (options : Option VideoSummaryOptions) :
    SummarizeStep × OpenAIServiceState :=
  if ¬ isConfigured s then
    (.rejected "OpenAI service is not configured. Please set your API key first.", s)
  else
    match s.config with
    | none =>
      (.rejected "OpenAI service is not configured. Please set your API key first.", s)
    | some c =>
      let hasFrames := match options with
        | some o => decide (o.frames.length > 0)
        | none => false
      let hasTranscript := match options with
        | some o => match o.transcript with
          | some t => decide (t.length > 100)
          | none => false
        | none => false
      let mdl := if hasFrames then c.visionModel else c.model
      (.networkRequest c.endpoint mdl (if hasTranscript then 800 else 500), s)

/-- C8: `summarizeVideo` rejects with the exact configured-check error
message whenever `isConfigured()` is false — before issuing any network
request — and leaves the stored configuration unchanged; and
`isConfigured()` returns true exactly when a configuration is present
whose apiKey is non-empty. -/
theorem summarizeVideo_requires_configuration (s : OpenAIServiceState)
    (options : Option VideoSummaryOptions) :
    (isConfigured s = false →
      (summarizeVideo s options).1 = .rejected
        "OpenAI service is not configured. Please set your API key first." ∧
      (summarizeVideo s options).2 = s) ∧
    (isConfigured s = true ↔
      ∃ c, s.config = some c ∧ c.apiKey ≠ "") := by
  constructor
  · intro h
    unfold summarizeVideo
    rw [if_pos (by simp [h])]
    exact ⟨rfl, rfl⟩
  · constructor
    · intro h
      cases hc : s.config with
      | none => simp [isConfigured, hc] at h
      | some c =>
        refine ⟨c, rfl, ?_⟩
        simp only [isConfigured, hc, decide_eq_true_eq] at h
        intro he
        rw [he] at h
        exact absurd h (by decide)
    · rintro ⟨c, hc, hne⟩
      simp only [isConfigured, hc, decide_eq_true_eq]
      show 0 < c.apiKey.data.length
      refine List.length_pos.mpr ?_
      intro hd
      apply hne
      cases hk : c.apiKey with
      | mk l =>
        rw [hk] at hd
        have hl : l = [] := hd
        subst hl
        decide

/-- Closed instance of C8: an unconfigured service rejects, and a
configured one satisfies the iff. -/
theorem summarizeVideo_requires_configuration_witness :
    ((summarizeVideo ⟨none⟩ none).1 = .rejected
      "OpenAI service is not configured. Please set your API key first." ∧
     (summarizeVideo ⟨none⟩ none).2 = ⟨none⟩) ∧
    (isConfigured ⟨some ⟨"sk-test", none, none, none⟩⟩ = true ↔
      ∃ c, (⟨some ⟨"sk-test", none, none, none⟩⟩ :
        OpenAIServiceState).config = some c ∧ c.apiKey ≠ "") :=
  ⟨(summarizeVideo_requires_configuration ⟨none⟩ none).1 rfl,
   (summarizeVideo_requires_configuration
     ⟨some ⟨"sk-test", none, none, none⟩⟩ none).2⟩

/-! ### `formatTimestamp` (`video-timestamp.ts`, lines 13–24) -/

/-- JavaScript `String.prototype.padStart(2, '0')`. -/
def padStart2 (s : String) : String :=
  if s.length ≥ 2 then s
  else if s.length = 1 then "0" ++ s
  else "00" ++ s

/-- `formatTimestamp` embedded with JavaScript integer semantics:
`Math.floor` is the real floor, `%` is the truncated remainder, and the
divisions feed through `Math.floor` (floor division). -/
def formatTimestamp (totalSeconds : ℚ) : String :=
  let currentTime : ℤ := ⌊totalSeconds⌋
  let hours : ℤ := currentTime.fdiv 3600
  let minutes : ℤ := (currentTime.tmod 3600).fdiv 60
  let seconds : ℤ := currentTime.tmod 60
  if hours > 0 then
    toString hours ++ ":" ++ padStart2 (toString minutes) ++ ":" ++
      padStart2 (toString seconds)
  else
    toString minutes ++ ":" ++ padStart2 (toString seconds)

/-- The claim's format, stated from its own words: `t` is rendered as
`H:MM:SS` when `t ≥ 3600` and as `M:SS` otherwise, the seconds field is
`t mod 60`, the minutes field is `(t mod 3600) / 60`, and the
two-character fields are zero-padded. -/
def pad2 (n : Nat) : String :=
  if n < 10 then "0" ++ toString n else toString n

def specFormatTimestamp (t : Nat) : String :=
  if t ≥ 3600 then
    toString (t / 3600) ++ ":" ++ pad2 ((t % 3600) / 60) ++ ":" ++
      pad2 (t % 60)
  else
    toString ((t % 3600) / 60) ++ ":" ++ pad2 (t % 60)

theorem padStart2_eq_pad2 : ∀ n : Nat, n < 60 →
    padStart2 (toString n) = pad2 n := by decide

/-- C9: for every non-negative `s`, `formatTimestamp s` renders
`t = ⌊s⌋` exactly as the claim's `H:MM:SS` / `M:SS` format, and the
minutes and seconds fields are always strictly below 60. -/
theorem formatTimestamp_spec (s : ℚ) (hs : 0 ≤ s) :
    formatTimestamp s = specFormatTimestamp (⌊s⌋).toNat ∧
    ((⌊s⌋).toNat % 3600) / 60 < 60 ∧ (⌊s⌋).toNat % 60 < 60 := by
  obtain ⟨n, hn⟩ : ∃ n : ℕ, ⌊s⌋ = (n : ℤ) :=
    ⟨(⌊s⌋).toNat, (Int.toNat_of_nonneg (Int.floor_nonneg.mpr hs)).symm⟩
  have hton : (⌊s⌋).toNat = n := by rw [hn]; exact Int.toNat_natCast n
  have hmin : (n % 3600) / 60 < 60 := by
    have h1 : n % 3600 < 3600 := Nat.mod_lt _ (by norm_num)
    omega
  have hsec : n % 60 < 60 := Nat.mod_lt _ (by norm_num)
  refine ⟨?_, by rw [hton]; exact hmin, by rw [hton]; exact hsec⟩
  rw [hton]
  simp only [formatTimestamp, hn]
  have hfdivNat : ∀ k d : ℕ, ((k : ℤ)).fdiv (d : ℕ) = ((k / d : ℕ) : ℤ) := by
    intro k d
    cases k with
    | zero => simp [Int.fdiv]
    | succ m => rfl
  have hfd : ((n : ℤ)).fdiv 3600 = ((n / 3600 : ℕ) : ℤ) := hfdivNat n 3600
  have htm : ((n : ℤ)).tmod 3600 = ((n % 3600 : ℕ) : ℤ) := rfl
  have htm60 : ((n : ℤ)).tmod 60 = ((n % 60 : ℕ) : ℤ) := rfl
  have hfd60 : (((n % 3600 : ℕ) : ℤ)).fdiv 60 = (((n % 3600) / 60 : ℕ) : ℤ) :=
    hfdivNat (n % 3600) 60
  have hts : ∀ k : ℕ, toString ((k : ℕ) : ℤ) = toString k := fun k => rfl
  rw [hfd, htm, htm60, hfd60]
  by_cases hge : 3600 ≤ n
  · rw [if_pos (by exact_mod_cast Nat.div_pos hge (by norm_num))]
    rw [specFormatTimestamp, if_pos hge]
    rw [hts, hts, hts, padStart2_eq_pad2 _ hmin, padStart2_eq_pad2 _ hsec]
  · rw [if_neg (by
      simp only [not_lt]
      exact_mod_cast Nat.le_zero.mpr (Nat.div_eq_of_lt (by omega)))]
    rw [specFormatTimestamp, if_neg hge]
    rw [hts, hts, padStart2_eq_pad2 _ hsec]

/-- Closed instance of C9 at 3725.5 seconds: `1:02:05`. -/
theorem formatTimestamp_spec_witness :
    0 ≤ (7451 / 2 : ℚ) ∧
    formatTimestamp (7451 / 2 : ℚ) =
      specFormatTimestamp ((⌊(7451 / 2 : ℚ)⌋).toNat) :=
  ⟨by norm_num, (formatTimestamp_spec (7451 / 2 : ℚ) (by norm_num)).1⟩

/-! ### Video-id extraction (`video-transcript.ts`, lines 8–45)

`new URL(url)` is a platform builtin: it is modelled as an arbitrary
parser function `parse : String → Option URLParts`, `none` standing for
the thrown `TypeError` that the `catch` block turns into `null`. -/

/-- The parts of a parsed WHATWG URL that the extractors read. -/
structure URLParts where
  hostname : String
  pathname : String
  searchParams : List (String × String)
deriving DecidableEq, Repr

/-- `URLSearchParams.get`: first value bound to the key, else null. -/
def getParam : List (String × String) → String → Option String
  | [], _ => none
  | (k, v) :: rest, key => if k = key then some v else getParam rest key

def isPrefixL : List Char → List Char → Bool
  | [], _ => true
  | _ :: _, [] => false
  | a :: as, b :: bs => a == b && isPrefixL as bs

def isInfixL : List Char → List Char → Bool
  | sub, [] => sub.isEmpty
  | sub, c :: t => isPrefixL sub (c :: t) || isInfixL sub t

/-- `String.prototype.includes`. -/
def containsSubstr (s sub : String) : Bool :=
  isInfixL sub.data s.data

/-- `extractYouTubeVideoId` (lines 8–26). -/
def extractYouTubeVideoId (parse : String → Option URLParts)
    (url : String) : Option String :=
  match parse url with
  | none => none
  | some u =>
    if containsSubstr u.hostname "youtube.com" then
      getParam u.searchParams "v"
    else if containsSubstr u.hostname "youtu.be" then
      some (u.pathname.drop 1)
    else none

/-- `[a-zA-Z0-9]` character class. -/
def isAlnum (c : Char) : Bool := c.isAlpha || c.isDigit

/-- Longest alphanumeric run at the front of the list (the greedy
`([a-zA-Z0-9]+)` capture). -/
def takeAlnum : List Char → List Char
  | [] => []
  | c :: t => if isAlnum c then c :: takeAlnum t else []

/-- First match of `/\/share\/([a-zA-Z0-9]+)/`: scan for `/share/`
followed by at least one alphanumeric character and return the greedy
capture. -/
def findShareCapture : List Char → Option (List Char)
  | [] => none
  | c :: t =>
    if isPrefixL "/share/".data (c :: t) then
      let cap := takeAlnum ((c :: t).drop 7)
      if cap.isEmpty then findShareCapture t else some cap
    else findShareCapture t

/-- `extractLoomVideoId` (lines 31–45). -/
def extractLoomVideoId (parse : String → Option URLParts)
    (url : String) : Option String :=
  match parse url with
  | none => none
  | some u =>
    if containsSubstr u.hostname "loom.com" then
      match findShareCapture u.pathname.data with
      | some cap => some (String.mk cap)
      | none => none
    else none

/-- C10: both extractors are total `Option`-valued functions — every
input yields a video id or null (the embedding's totality is Lean's
termination guarantee; the `try/catch` is the `Option` on the parser);
both return null whenever the input fails to parse as a URL; and
`extractYouTubeVideoId` returns null whenever the parsed hostname
contains neither `"youtube.com"` nor `"youtu.be"`. -/
theorem extractVideoId_safety (parse : String → Option URLParts)
    (url : String) :
    ((extractYouTubeVideoId parse url = none ∨
      ∃ id, extractYouTubeVideoId parse url = some id) ∧
     (extractLoomVideoId parse url = none ∨
      ∃ id, extractLoomVideoId parse url = some id)) ∧
    (parse url = none →
      extractYouTubeVideoId parse url = none ∧
      extractLoomVideoId parse url = none) ∧
    (∀ u, parse url = some u →
      containsSubstr u.hostname "youtube.com" = false →
      containsSubstr u.hostname "youtu.be" = false →
      extractYouTubeVideoId parse url = none) := by
  refine ⟨⟨?_, ?_⟩, ?_, ?_⟩
  · cases h : extractYouTubeVideoId parse url with
    | none => exact Or.inl rfl
    | some id => exact Or.inr ⟨id, rfl⟩
  · cases h : extractLoomVideoId parse url with
    | none => exact Or.inl rfl
    | some id => exact Or.inr ⟨id, rfl⟩
  · intro h
    constructor
    · unfold extractYouTubeVideoId
      rw [h]
    · unfold extractLoomVideoId
      rw [h]
  · intro u hu h1 h2
    unfold extractYouTubeVideoId
    rw [hu]
    simp [h1, h2]

/-- Closed instance of C10: an unparseable input yields null from both
extractors, and a non-YouTube hostname yields null. -/
theorem extractVideoId_safety_witness :
    (extractYouTubeVideoId (fun _ => none) "not a url" = none ∧
     extractLoomVideoId (fun _ => none) "not a url" = none) ∧
    extractYouTubeVideoId
      (fun _ => some ⟨"example.com", "/watch", [("v", "dQw4w9WgXcQ")]⟩)
      "https://example.com/watch?v=dQw4w9WgXcQ" = none := by
  constructor
  · exact (extractVideoId_safety (fun _ => none) "not a url").2.1 rfl
  · exact (extractVideoId_safety
      (fun _ => some ⟨"example.com", "/watch", [("v", "dQw4w9WgXcQ")]⟩)
      "https://example.com/watch?v=dQw4w9WgXcQ").2.2
      ⟨"example.com", "/watch", [("v", "dQw4w9WgXcQ")]⟩ rfl
      (by decide) (by decide)

/-! ### Rendering-layer store surface (`EmbedYoutubeBlockComponent`) -/

/-- The store entry points a rendering component can reach. -/
inductive StoreCall where
  | getBlock (id : Nat)
  | getChildren (id : Nat)
  | subscribe
  | transactEntry
  | updateBlock (id : Nat) (updates : List (String × Val))
  | addBlock (flavour : String)
  | withoutTransactEntry
deriving DecidableEq, Repr

/-- The read-only surface the spec grants the rendering collaborator:
`getBlock`, `getChildren`, `subscribe`. -/
def renderReadOnly : StoreCall → Bool
  | .getBlock _ => true
  | .getChildren _ => true
  | .subscribe => true
  | _ => false

def isTransactEntry : StoreCall → Bool
  | .transactEntry => true
  | _ => false

/-- From part_001 lines 212–218, `_toggleAutoCaptureOnPause`: the
checkbox change handler calls
`this.store.updateBlock(this.model, { autoCaptureOnPause:
checkbox.checked })` directly — its store-call trace. -/
def toggleAutoCaptureOnPauseCalls (modelId : Nat) (checked : Bool) :
    List StoreCall :=
  [.updateBlock modelId [("autoCaptureOnPause", .boolean checked)]]

/-- C2 as stated is false on the code: the checkbox handler's store
call is neither in the read-only surface (`getBlock`, `getChildren`,
`subscribe`) nor the `transact` entry point — it is a direct
`updateBlock` mutation issued from a rendering component's UI event. -/
theorem toggle_handler_breaks_render_surface :
    ¬ (∀ c ∈ toggleAutoCaptureOnPauseCalls 1 true,
        renderReadOnly c = true ∨ isTransactEntry c = true) := by
  decide

/-- C2 amended: the checkbox handler issues exactly one direct
`updateBlock` call (so the rendering surface is not limited to the
read-only trio), but under the transaction engine such a mutation call
made with no open transaction is rejected as `NoActiveTransaction`
with no successor state — tree writes still happen only inside
transaction scopes. -/
theorem toggle_handler_direct_update (modelId : Nat) (checked : Bool)
    (s : DocState) (hno : s.openTx = none) :
    toggleAutoCaptureOnPauseCalls modelId checked =
      [.updateBlock modelId [("autoCaptureOnPause", .boolean checked)]] ∧
    (renderReadOnly (.updateBlock modelId
      [("autoCaptureOnPause", .boolean checked)]) = false) ∧
    updateBlockApi s modelId [("autoCaptureOnPause", .boolean checked)] =
      .error .NoActiveTransaction := by
  refine ⟨rfl, rfl, ?_⟩
  simp [updateBlockApi, hno]

/-- Closed instance of the amended C2. -/
theorem toggle_handler_direct_update_witness :
    toggleAutoCaptureOnPauseCalls 1 true =
      [.updateBlock 1 [("autoCaptureOnPause", .boolean true)]] ∧
    (renderReadOnly (.updateBlock 1
      [("autoCaptureOnPause", .boolean true)]) = false) ∧
    updateBlockApi
      ⟨[(0, ⟨"affine:page", [], [1]⟩),
        (1, ⟨"affine:embed-youtube", [], []⟩)], none, [], [], [], []⟩
      1 [("autoCaptureOnPause", .boolean true)] =
      .error .NoActiveTransaction :=
  toggle_handler_direct_update 1 true
    ⟨[(0, ⟨"affine:page", [], [1]⟩),
      (1, ⟨"affine:embed-youtube", [], []⟩)], none, [], [], [], []⟩ rfl

end BlockSuite
